import Mathlib

/-!
# Verification of the bazel-buildbarn build executor core

A shallow embedding, in Lean 4, of the Go sources of the bazel-buildbarn
repository:

* `pkg/builder` local build executor (`joinPathSafe`, `createInputDirectory`,
  `prepareFilesystem`, `runCommand`, `uploadDirectory`, `uploadTree`,
  `Execute`);
* `pkg/ac` action cache (`blobAccessActionCache`);
* the default `InputFileExposer` (`blobAccessInputFileExposer.Expose`).

Go strings are modelled as Lean `String`s (with the path algorithms working on
the underlying `List Char`), machine integers as `Int`/`Nat`, fallible calls
as `Except`/`Option`, and the ambient filesystem / CAS / process world as a
record of oracle functions.  External effects that the code only observes
through return values are modelled through those oracles; the one genuinely
external *algorithm* the executor relies on is Go's `path` package, which is
embedded below following the `path.Clean` / `path.Join` / `path.Dir` sources.
-/

namespace Bbb

/-! ## The Go `path` package

`path.Clean` (Go stdlib) processes a slash-separated path: it drops empty and
`.` elements, resolves `..` against preceding elements (never above the root
of a rooted path), and renders the result, mapping an empty outcome to `"."`
(or `"/"` when rooted).  The byte-level `lazybuf` algorithm of the Go source
is embedded here at the granularity of path components: the buffer of already
emitted output is kept as a list of components in reverse order, and Go's
`dotdot` backtracking barrier corresponds to the block of `..` components at
the bottom of that buffer.
-/

/-- The path component `".."`. -/
def dd : List Char := ['.', '.']

/-- The path component `"."`. -/
def dot : List Char := ['.']

/-- Split a character list on `'/'`.  `splitSlashAux cs cur` prepends the
(reversed) partial component `cur` to the components of `cs`. -/
def splitSlashAux : List Char → List Char → List (List Char)
  | [], cur => [cur.reverse]
  | c :: rest, cur =>
    if c = '/' then cur.reverse :: splitSlashAux rest []
    else splitSlashAux rest (c :: cur)

/-- Split a path into its slash-separated components (empty components
included, as in the Go scanner which treats them as empty path elements). -/
def splitSlash (cs : List Char) : List (List Char) :=
  splitSlashAux cs []

/-- Interleave `'/'` between components (Go's rendering of the output
buffer). -/
def joinSlash : List (List Char) → List Char
  | [] => []
  | [c] => c
  | c :: rest => c ++ '/' :: joinSlash rest

/-- One step of `path.Clean`'s main loop, acting on the output buffer `out`
(in reverse order: head = most recently emitted component).

* an empty or `.` element is dropped;
* `..` pops the last real component; if there is none it is emitted for an
  unrooted path and dropped for a rooted one (Go's `out.w > dotdot` test:
  the popped component exists exactly when the buffer holds a component that
  is not part of the leading `..` block);
* any other element is emitted. -/
def cleanStep (rooted : Bool) (out : List (List Char)) (c : List Char) :
    List (List Char) :=
  if c = [] ∨ c = dot then out
  else if c = dd then
    match out with
    | [] => if rooted then [] else [dd]
    | last :: rest => if last = dd then dd :: out else rest
  else c :: out

/-- `path.Clean`'s loop over all components, rendered back in path order. -/
def cleanComps (rooted : Bool) (comps : List (List Char)) : List (List Char) :=
  (comps.foldl (cleanStep rooted) []).reverse

/-- `path.Clean` on a character list: `Clean("") = "."`; otherwise process the
components and render, with an empty outcome turning into `"/"` (rooted) or
`"."` (unrooted). -/
def goCleanChars (cs : List Char) : List Char :=
  match cs with
  | [] => dot
  | c :: _ =>
    let rooted := c = '/'
    let comps := cleanComps rooted (splitSlash cs)
    if rooted then '/' :: joinSlash comps
    else match comps with
      | [] => dot
      | _ => joinSlash comps

/-- Go `path.Clean`. -/
def goClean (s : String) : String :=
  ⟨goCleanChars s.data⟩

/-- Go `path.Join` on character lists: skip leading empty elements, join the
rest with `'/'` (later empty elements still contribute a separator, exactly
as in the Go loop over the shared buffer), and `Clean` the result; if every
element is empty the joined size is zero and the empty string is returned
without cleaning. -/
def goJoinChars (elems : List (List Char)) : List Char :=
  match elems.dropWhile (· = []) with
  | [] => []
  | e :: rest => goCleanChars (joinSlash (e :: rest))

/-- Go `path.Join`. -/
def goJoin (elems : List String) : String :=
  ⟨goJoinChars (elems.map String.data)⟩

/-- Go `path.Dir`: the portion of the path up to (and including) the final
slash, `Clean`ed; a path without a slash has directory `"."`. -/
def goDir (s : String) : String :=
  ⟨goCleanChars ((s.data.reverse.dropWhile (fun c => !(c = '/'))).reverse)⟩

/-! ## Remote Execution API messages

The protocol-buffer messages of the Bazel Remote Execution API v2, restricted
to the fields the embedded code reads or writes.  Proto scalar defaults do
not matter here because the code never distinguishes unset from zero-valued
fields; nil message pointers are modelled with `Option`.
-/

/-- `remoteexecution.Digest`: `(hash, size_bytes)`. -/
structure Digest where
  hash : String
  sizeBytes : Int
  deriving DecidableEq, Repr, Inhabited

/-- `remoteexecution.FileNode`. -/
structure FileNode where
  name : String
  digest : Digest
  isExecutable : Bool
  deriving DecidableEq, Repr

/-- `remoteexecution.DirectoryNode`. -/
structure DirectoryNode where
  name : String
  digest : Digest
  deriving DecidableEq, Repr

/-- `remoteexecution.SymlinkNode`. -/
structure SymlinkNode where
  name : String
  target : String
  deriving DecidableEq, Repr

/-- `remoteexecution.Directory`. -/
structure Directory where
  files : List FileNode
  directories : List DirectoryNode
  symlinks : List SymlinkNode
  deriving DecidableEq, Repr, Inhabited

/-- `remoteexecution.Tree`: a root plus the transitive child directories. -/
structure Tree where
  root : Directory
  children : List Directory
  deriving DecidableEq, Repr

/-- `remoteexecution.Command.EnvironmentVariable`. -/
structure EnvironmentVariable where
  name : String
  value : String
  deriving DecidableEq, Repr

/-- `remoteexecution.Command`, restricted to the fields `Execute` reads. -/
structure Command where
  arguments : List String
  environmentVariables : List EnvironmentVariable
  workingDirectory : String
  outputFiles : List String
  outputDirectories : List String
  deriving DecidableEq, Repr

/-- `remoteexecution.Action`, restricted to the fields `Execute` reads. -/
structure Action where
  commandDigest : Digest
  inputRootDigest : Digest
  doNotCache : Bool
  deriving DecidableEq, Repr

/-- `remoteexecution.OutputFile`. -/
structure OutputFile where
  path : String
  digest : Digest
  isExecutable : Bool
  deriving DecidableEq, Repr

/-- `remoteexecution.OutputDirectory`. -/
structure OutputDirectory where
  path : String
  treeDigest : Digest
  deriving DecidableEq, Repr

/-- `remoteexecution.ActionResult`, as populated by `Execute`. -/
structure ActionResult where
  exitCode : Int
  stdoutDigest : Option Digest
  stderrDigest : Option Digest
  outputFiles : List OutputFile
  outputDirectories : List OutputDirectory
  deriving DecidableEq, Repr

/-- `remoteexecution.ExecuteRequest`, restricted to the fields read. -/
structure ExecuteRequest where
  instanceName : String
  actionDigest : Digest
  deriving DecidableEq, Repr

/-! ## Errors

Every distinct error the embedded code can construct has its own
constructor, so that error identity (Go compares via `os.IsNotExist` and a
type assertion on `*exec.ExitError`) is decidable.  Errors produced by the
surrounding world (CAS, filesystem, spawning) come in through the oracles
and may use any constructor.
-/

/-- Errors of the embedded Go code and its environment. -/
inductive GoError where
  /-- `errors.New("Creating symlinks in the input root is not yet supported")`
  (`local_build_executor.go` line 94). -/
  | symlinksUnsupported
  /-- `errors.New("Insufficent number of command arguments")` (line 125). -/
  | insufficientArguments
  /-- `fmt.Errorf("Attempted to access non-clean path %s", joined)`
  (line 47). -/
  | nonCleanPath (joined : String)
  /-- `fmt.Errorf("Path %s has an unsupported file type", basePath)`
  (line 209). -/
  | unsupportedFileType (basePath : String)
  /-- A `proto.Unmarshal` failure (`blob_access_action_cache.go` line 33). -/
  | unmarshalFailure
  /-- A `*exec.ExitError` carrying the wait status of the exited process. -/
  | exitError (status : Int)
  /-- An error for which `os.IsNotExist` reports true (ENOENT). -/
  | notExist (path : String)
  /-- An EEXIST error from `O_CREATE|O_EXCL` on an existing file. -/
  | alreadyExists (path : String)
  /-- Any other error supplied by the environment. -/
  | external (msg : String)
  /-- Modelling artifact: recursion fuel exhausted.  The Go recursions over
  digest graphs and on-disk trees have no intrinsic termination measure, so
  the embedding adds fuel; theorems quantify over sufficient fuel. -/
  | fuelExhausted
  deriving DecidableEq, Repr

/-- Go `os.IsNotExist`. -/
def isNotExist : GoError → Bool
  | .notExist _ => true
  | _ => false

/-- Decidable equality of `Except` values (for evaluating the embedded
functions on concrete inputs). -/
instance exceptDecEq {ε α : Type} [DecidableEq ε] [DecidableEq α] :
    DecidableEq (Except ε α) := fun a b =>
  match a, b with
  | .ok x, .ok y =>
    decidable_of_iff (x = y) ⟨fun h => by rw [h], fun h => by injection h⟩
  | .error x, .error y =>
    decidable_of_iff (x = y) ⟨fun h => by rw [h], fun h => by injection h⟩
  | .ok _, .error _ => .isFalse (fun h => Except.noConfusion h)
  | .error _, .ok _ => .isFalse (fun h => Except.noConfusion h)

/-- gRPC status codes distinguished by the specification (spec §7). -/
inductive StatusCode where
  | notFound
  | invalidArgument
  | dataLoss
  | unavailable
  | unimplemented
  | failedPrecondition
  | internalError
  | unknown
  deriving DecidableEq, Repr

/-- Modelled from the spec: the error classification of §7 (the repository's
`convertErrorToExecuteResponse` / gRPC status plumbing is not among the
provided sources).  The spec assigns `Unimplemented` to the input-root
symlink rejection, `InvalidArgument` to malformed requests, unsafe paths and
empty argument vectors, `NotFound` to absent blobs, `DataLoss` to decode
failures and `FailedPrecondition` to unsupported file types in the output
harvest. -/
def statusCode : GoError → StatusCode
  | .symlinksUnsupported => .unimplemented
  | .insufficientArguments => .invalidArgument
  | .nonCleanPath _ => .invalidArgument
  | .unsupportedFileType _ => .failedPrecondition
  | .unmarshalFailure => .dataLoss
  | .exitError _ => .unknown
  | .notExist _ => .notFound
  | .alreadyExists _ => .unknown
  | .external _ => .unknown
  | .fuelExhausted => .unknown

/-- `remoteexecution.ExecuteResponse`.  Modelled from the spec: errors are
not wrapped into an `ActionResult`; an error `Execute` surfaces the error
itself (`convertErrorToExecuteResponse` is not among the provided sources),
a successful `Execute` carries the result. -/
inductive ExecuteResponse where
  | success (result : ActionResult)
  | failure (e : GoError)
  deriving DecidableEq, Repr

/-- `convertErrorToExecuteResponse`.  Modelled from the spec: "errors are not
wrapped into ActionResult unless they are command-exit errors; staging and
harvesting errors surface to the caller" (§7). -/
def convertErrorToExecuteResponse (e : GoError) : ExecuteResponse :=
  .failure e

/-! ## The executor's world

`localBuildExecutor` interacts with a `ContentAddressableStorage`, the local
filesystem and the process spawner.  These are modelled as a record of
oracle functions: each oracle maps the call's arguments to the outcome the
world would produce for it.  The model is stateless — the claims under proof
are about the control flow of a single `Execute`, which in the source also
observes each effect only through its returned value. -/

/-- Go `os.FileMode & os.ModeType` as distinguished by `uploadDirectory`. -/
inductive FileKind where
  /-- A regular file (`file.Mode() & os.ModeType == 0`). -/
  | regular
  /-- `os.ModeDir`. -/
  | dir
  /-- `os.ModeSymlink`. -/
  | symlink
  /-- Any other mode bit: device, pipe, socket, ... -/
  | other
  deriving DecidableEq, Repr

/-- One entry of Go `ioutil.ReadDir`. -/
structure FileEntry where
  name : String
  kind : FileKind
  deriving DecidableEq, Repr

/-- The fully assembled `exec.Cmd` at the moment `cmd.Run()` is called:
argument vector (`cmd.Args`, program first), working directory (`cmd.Dir`),
environment (`cmd.Env`) and the dropped credential
(`cmd.SysProcAttr.Credential`). -/
structure CmdSpec where
  argv : List String
  dir : String
  env : List String
  uid : Nat
  gid : Nat
  deriving DecidableEq, Repr

/-- The oracles for every external call `localBuildExecutor` makes. -/
structure World where
  /-- `ContentAddressableStorage.GetAction`. -/
  getAction : String → Digest → Except GoError Action
  /-- `ContentAddressableStorage.GetCommand`. -/
  getCommand : String → Digest → Except GoError Command
  /-- `ContentAddressableStorage.GetDirectory`. -/
  getDirectory : String → Digest → Except GoError Directory
  /-- `ContentAddressableStorage.GetFile instance digest path isExecutable`;
  `none` is success. -/
  getFile : String → Digest → String → Bool → Option GoError
  /-- `ContentAddressableStorage.PutFile instance path`. -/
  putFile : String → String → Except GoError (Digest × Bool)
  /-- `ContentAddressableStorage.PutTree`. -/
  putTree : String → Tree → Except GoError Digest
  /-- `util.DigestFromMessage` on a `Directory` (deterministic
  serialize-and-hash; `pkg/util` is not among the provided sources, so its
  outcome is an oracle). -/
  digestFromMessage : Directory → Except GoError Digest
  /-- `os.Mkdir path perm`; `none` is success. -/
  mkdir : String → Nat → Option GoError
  /-- `os.MkdirAll path perm`; `none` is success. -/
  mkdirAll : String → Nat → Option GoError
  /-- `os.RemoveAll path`.  The source discards its result, so the oracle
  returns `Unit`. -/
  removeAll : String → Unit
  /-- `os.OpenFile path os.O_WRONLY|os.O_CREATE|os.O_TRUNC 0`;
  `none` is success. -/
  openFile : String → Option GoError
  /-- `ioutil.ReadDir`. -/
  readDir : String → Except GoError (List FileEntry)
  /-- `os.Readlink`. -/
  readlink : String → Except GoError String
  /-- `cmd.Run()` on the fully assembled command; `none` means exit status
  zero, `some (.exitError s)` a non-zero exit, anything else a failure to
  spawn. -/
  run : CmdSpec → Option GoError

/-- Lift an optional error (Go's `if err != nil` on a call without further
results) into `Except`. -/
def toExcept : Option GoError → Except GoError Unit
  | none => .ok ()
  | some e => .error e

/-! ## `pkg/builder/local_build_executor.go` (part_001) -/

/-- `pathTempRoot` (line 22). -/
def pathTempRoot : String := "/tmp"

/-- `pathBuildRoot` (line 23). -/
def pathBuildRoot : String := "/build"

/-- `pathStdout` (line 24). -/
def pathStdout : String := "/stdout"

/-- `pathStderr` (line 25). -/
def pathStderr : String := "/stderr"

/-- `joinPathSafe` (lines 44-50): join the elements, and reject the result if
it differs from its own cleaned form. -/
def joinPathSafe (elems : List String) : Except GoError String :=
  let joined := goJoin elems
  if joined ≠ goClean joined then .error (.nonCleanPath joined)
  else .ok joined

/-- `localBuildExecutor.createInputDirectory` (lines 64-97): make the
directory, fetch its `Directory` message, materialize the files, recurse
into the child directories, and reject symlinks.  The two Go `for` loops are
the two `foldlM`s (short-circuiting on the first error, like the Go
`return err`s); `fuel` bounds the recursion depth through the digest
graph. -/
def createInputDirectory (w : World) (inst : String) :
    Digest → String → Nat → Except GoError Unit
  | _, _, 0 => .error .fuelExhausted
  | digest, base, fuel + 1 => do
    toExcept (w.mkdir base 0o777)
    let directory ← w.getDirectory inst digest
    directory.files.foldlM (fun _ file => do
      let childPath ← joinPathSafe [base, file.name]
      toExcept (w.getFile inst file.digest childPath file.isExecutable)) ()
    directory.directories.foldlM (fun _ dirNode => do
      let childPath ← joinPathSafe [base, dirNode.name]
      createInputDirectory w inst dirNode.digest childPath fuel) ()
    if directory.symlinks.length > 0 then .error .symlinksUnsupported
    else .ok ()

/-- The output-parent preparation loop of `prepareFilesystem`
(lines 107-115): for every declared output file, `MkdirAll` its parent
directory. -/
def prepareOutputParents (w : World) : List String → Except GoError Unit
  | [] => .ok ()
  | outputFile :: rest => do
    let outputPath ← joinPathSafe [pathBuildRoot, outputFile]
    toExcept (w.mkdirAll (goDir outputPath) 0o777)
    prepareOutputParents w rest

/-- `localBuildExecutor.prepareFilesystem` (lines 99-120). -/
def prepareFilesystem (w : World) (request : ExecuteRequest) (action : Action)
    (command : Command) (fuel : Nat) : Except GoError Unit := do
  let _ := w.removeAll pathBuildRoot
  createInputDirectory w request.instanceName action.inputRootDigest
    pathBuildRoot fuel
  prepareOutputParents w command.outputFiles
  let _ := w.removeAll pathTempRoot
  toExcept (w.mkdir pathTempRoot 0o777)

/-- `localBuildExecutor.runCommand` (lines 122-159), returning the outcome of
`cmd.Run()` together with the list of commands actually spawned (empty when
a check fails before `Run`; the assembled `exec.Cmd` of line 127 is only
handed to the OS at line 158). -/
def runCommand (w : World) (command : Command) :
    Except GoError Unit × List CmdSpec :=
  if command.arguments.length < 1 then (.error .insufficientArguments, [])
  else
    match joinPathSafe [pathBuildRoot, command.workingDirectory] with
    | .error e => (.error e, [])
    | .ok workingDirectory =>
      match w.openFile pathStdout with
      | some e => (.error e, [])
      | none =>
        match w.openFile pathStderr with
        | some e => (.error e, [])
        | none =>
          let spec : CmdSpec :=
            { argv := command.arguments
              dir := workingDirectory
              env := ("HOME=" ++ pathTempRoot) ::
                command.environmentVariables.map
                  (fun v => v.name ++ "=" ++ v.value)
              uid := 1
              gid := 1 }
          match w.run spec with
          | some e => (.error e, [spec])
          | none => (.ok (), [spec])

/-- Go map insertion for the `children` map of `uploadTree`, modelled as an
association list in insertion order (`tree.Children` is then read off in
that order; Go map iteration order is unspecified). -/
def mapInsert (m : List (String × Directory)) (k : String) (v : Directory) :
    List (String × Directory) :=
  match m with
  | [] => [(k, v)]
  | (k', v') :: rest =>
    if k' = k then (k, v) :: rest else (k', v') :: mapInsert rest k v

/-- `localBuildExecutor.uploadDirectory` (lines 161-213): read the directory,
and fold over its entries building the `Directory` message (appends keep the
`ReadDir` order) while accumulating every child directory message into the
`children` map.  Returns `(none, children)` for a non-existent directory
when `permitNonExistent` (the Go `nil, nil` return). -/
def uploadDirectory (w : World) (inst : String) :
    String → Bool → List (String × Directory) → Nat →
    Except GoError (Option Directory × List (String × Directory))
  | _, _, _, 0 => .error .fuelExhausted
  | basePath, permitNonExistent, children, fuel + 1 =>
    match w.readDir basePath with
    | .error e =>
      if permitNonExistent && isNotExist e then .ok (none, children)
      else .error e
    | .ok files => do
      let (directory, children) ←
        files.foldlM (fun (acc : Directory × List (String × Directory)) file => do
          let (directory, children) := acc
          let fullPath := goJoin [basePath, file.name]
          match file.kind with
          | .regular => do
            let (digest, isExecutable) ← w.putFile inst fullPath
            .ok ({ directory with
                    files := directory.files ++
                      [{ name := file.name, digest := digest,
                         isExecutable := isExecutable }] }, children)
          | .dir => do
            let (childOpt, children) ←
              uploadDirectory w inst fullPath false children fuel
            -- With permitNonExistent = false the child is never `none`; Go
            -- would pass the nil pointer on, which proto-serializes as the
            -- empty message.
            let child := childOpt.getD default
            let digest ← w.digestFromMessage child
            .ok ({ directory with
                    directories := directory.directories ++
                      [{ name := file.name, digest := digest }] },
                 mapInsert children digest.hash child)
          | .symlink => do
            let target ← w.readlink fullPath
            .ok ({ directory with
                    symlinks := directory.symlinks ++
                      [{ name := file.name, target := target }] }, children)
          | .other => .error (.unsupportedFileType basePath))
          (⟨[], [], []⟩, children)
      .ok (some directory, children)

/-- `localBuildExecutor.uploadTree` (lines 215-229). -/
def uploadTree (w : World) (inst : String) (path : String) (fuel : Nat) :
    Except GoError (Option Digest) :=
  match uploadDirectory w inst path true [] fuel with
  | .error e => .error e
  | .ok (none, _) => .ok none
  | .ok (some root, children) =>
    match w.putTree inst { root := root, children := children.map (·.2) } with
    | .error e => .error e
    | .ok digest => .ok (some digest)

/-- The exit-code extraction of `Execute` (lines 256-264): success is exit
code 0, a `*exec.ExitError` carries the observed wait status, and any other
error from `runCommand` aborts. -/
def exitOf : Except GoError Unit → Except GoError Int
  | .ok () => .ok 0
  | .error (.exitError status) => .ok status
  | .error e => .error e

/-- The output-file harvest loop of `Execute` (lines 288-305): `PutFile`
every declared output file, skipping ENOENT, aborting on any other error;
the surviving descriptors keep declaration order. -/
def uploadOutputFiles (w : World) (inst : String) :
    List String → Except GoError (List OutputFile)
  | [] => .ok []
  | outputFile :: rest => do
    let outputPath ← joinPathSafe [pathBuildRoot, outputFile]
    match w.putFile inst outputPath with
    | .error e =>
      if isNotExist e then uploadOutputFiles w inst rest
      else .error e
    | .ok (digest, isExecutable) => do
      let tail ← uploadOutputFiles w inst rest
      .ok ({ path := outputFile, digest := digest,
             isExecutable := isExecutable } :: tail)

/-- The output-directory harvest loop of `Execute` (lines 308-323):
`uploadTree` every declared output directory, skipping the non-existent ones
(`digest = nil`), aborting on error; declaration order is kept. -/
def uploadOutputDirectories (w : World) (inst : String) (fuel : Nat) :
    List String → Except GoError (List OutputDirectory)
  | [] => .ok []
  | outputDirectory :: rest => do
    let outputPath ← joinPathSafe [pathBuildRoot, outputDirectory]
    match uploadTree w inst outputPath fuel with
    | .error e => .error e
    | .ok none => uploadOutputDirectories w inst fuel rest
    | .ok (some digest) => do
      let tail ← uploadOutputDirectories w inst fuel rest
      .ok ({ path := outputDirectory, treeDigest := digest } :: tail)

/-- `localBuildExecutor.Execute` (lines 231-329), returning the
`(response, cacheable)` pair together with the list of spawned commands
(the metrics observations of the source are observability only and not
modelled).  `fuel` bounds the input-tree and output-tree recursions. -/
def Execute (w : World) (request : ExecuteRequest) (fuel : Nat) :
    (ExecuteResponse × Bool) × List CmdSpec :=
  match w.getAction request.instanceName request.actionDigest with
  | .error e => ((convertErrorToExecuteResponse e, false), [])
  | .ok action =>
  match w.getCommand request.instanceName action.commandDigest with
  | .error e => ((convertErrorToExecuteResponse e, false), [])
  | .ok command =>
  match prepareFilesystem w request action command fuel with
  | .error e => ((convertErrorToExecuteResponse e, false), [])
  | .ok () =>
  match exitOf (runCommand w command).1 with
  | .error e => ((convertErrorToExecuteResponse e, false), (runCommand w command).2)
  | .ok exitCode =>
  match w.putFile request.instanceName pathStdout with
  | .error e => ((convertErrorToExecuteResponse e, false), (runCommand w command).2)
  | .ok (stdoutDigest, _) =>
  match w.putFile request.instanceName pathStderr with
  | .error e => ((convertErrorToExecuteResponse e, false), (runCommand w command).2)
  | .ok (stderrDigest, _) =>
  match uploadOutputFiles w request.instanceName command.outputFiles with
  | .error e => ((convertErrorToExecuteResponse e, false), (runCommand w command).2)
  | .ok outputFiles =>
  match uploadOutputDirectories w request.instanceName fuel
      command.outputDirectories with
  | .error e => ((convertErrorToExecuteResponse e, false), (runCommand w command).2)
  | .ok outputDirectories =>
    ((.success
        { exitCode := exitCode
          stdoutDigest := some stdoutDigest
          stderrDigest := some stderrDigest
          outputFiles := outputFiles
          outputDirectories := outputDirectories },
      !action.doNotCache && (exitCode == 0)), (runCommand w command).2)

/-! ## Spec-side characterizations (for the harvest refinement claim)

Written from the specification's words ("the ActionResult lists, in the
order of the command's declarations, exactly those declared output files
present in the build root and exactly those declared output directories
that exist"), to be compared with the harvest loops above. -/

/-- The output files the spec says the `ActionResult` must list: the declared
paths, in declaration order, restricted to those the world can upload
(an upload error means the file is not present). -/
def specOutputFiles (w : World) (inst : String) (outputFiles : List String) :
    List OutputFile :=
  outputFiles.filterMap (fun outputFile =>
    match w.putFile inst (goJoin [pathBuildRoot, outputFile]) with
    | .ok (digest, isExecutable) =>
      some { path := outputFile, digest := digest, isExecutable := isExecutable }
    | .error _ => none)

/-- The output directories the spec says the `ActionResult` must list: the
declared paths, in declaration order, restricted to those that exist (their
tree uploads to a digest). -/
def specOutputDirectories (w : World) (inst : String) (fuel : Nat)
    (outputDirectories : List String) : List OutputDirectory :=
  outputDirectories.filterMap (fun outputDirectory =>
    match uploadTree w inst (goJoin [pathBuildRoot, outputDirectory]) fuel with
    | .ok (some digest) =>
      some { path := outputDirectory, treeDigest := digest }
    | _ => none)

/-- Spec-side (for the symlink claim): the input tree reachable from
`digest` — following `DirectoryNode`s through the world's `GetDirectory`,
to depth `fuel` — contains a `Directory` carrying at least one
`SymlinkNode`. -/
def treeHasSymlink (w : World) (inst : String) : Digest → Nat → Bool
  | _, 0 => false
  | digest, fuel + 1 =>
    match w.getDirectory inst digest with
    | .error _ => false
    | .ok directory =>
      decide (directory.symlinks.length > 0) ||
        directory.directories.any (fun d => treeHasSymlink w inst d.digest fuel)

/-- Spec-side (for the symlink claim): every directory of the input tree
reachable from `digest` resolves through `GetDirectory`, and the tree's
depth stays within `fuel` — the staging recursion can neither fail a fetch
nor run out of fuel. -/
def stagingCompletes (w : World) (inst : String) : Digest → Nat → Bool
  | _, 0 => false
  | digest, fuel + 1 =>
    match w.getDirectory inst digest with
    | .error _ => false
    | .ok directory =>
      directory.directories.all (fun d => stagingCompletes w inst d.digest fuel)

/-! ## `pkg/ac/blob_access_action_cache.go`

The action cache reads and writes `ActionResult` blobs through a
`BlobAccess`.  A `BlobAccess` is stateful (a `Put` changes what later `Get`s
see), so its two operations are modelled as explicit state transformers over
an abstract store type.  `proto.Marshal` / `proto.Unmarshal` come from the
protobuf library (not among the provided sources); they are modelled from
the spec ("protocol-buffer encoded messages ... matching the published
schemas", §6) as an executable, injective, self-delimiting serialization of
the `ActionResult` fields with its decoder. -/

/-- Blob contents. -/
abbrev Bytes := List Nat

/-- Encoded booleans. -/
def encBool (b : Bool) : Bytes := [if b then 1 else 0]

/-- Encoded integers: sign then magnitude. -/
def encInt (i : Int) : Bytes := [if i < 0 then 1 else 0, i.natAbs]

/-- Decode an integer. -/
def decInt : Bytes → Option (Int × Bytes)
  | s :: n :: rest => some (if s = 1 then -(n : Int) else (n : Int), rest)
  | _ => none

/-- Encoded strings: length-prefixed code points. -/
def encString (s : String) : Bytes :=
  s.data.length :: s.data.map Char.toNat

/-- Decode a string. -/
def decString : Bytes → Option (String × Bytes)
  | n :: rest =>
    if n ≤ rest.length then
      some (⟨(rest.take n).map Char.ofNat⟩, rest.drop n)
    else none
  | [] => none

/-- Encoded lists: length-prefixed concatenation of element encodings. -/
def encList (enc : α → Bytes) (l : List α) : Bytes :=
  l.length :: (l.map enc).flatten

/-- Decode `n` consecutive elements. -/
def decListAux (dec : Bytes → Option (α × Bytes)) :
    Nat → Bytes → Option (List α × Bytes)
  | 0, b => some ([], b)
  | n + 1, b =>
    match dec b with
    | none => none
    | some (a, b') =>
      match decListAux dec n b' with
      | none => none
      | some (l, b'') => some (a :: l, b'')

/-- Decode a list. -/
def decList (dec : Bytes → Option (α × Bytes)) : Bytes → Option (List α × Bytes)
  | n :: rest => decListAux dec n rest
  | [] => none

/-- Encoded digests. -/
def encDigest (d : Digest) : Bytes :=
  encString d.hash ++ encInt d.sizeBytes

/-- Decode a digest. -/
def decDigest (b : Bytes) : Option (Digest × Bytes) :=
  match decString b with
  | none => none
  | some (h, b) =>
    match decInt b with
    | none => none
    | some (sz, b) => some ({ hash := h, sizeBytes := sz }, b)

/-- Encoded optional values (proto nil pointers). -/
def encOpt (enc : α → Bytes) : Option α → Bytes
  | none => [0]
  | some a => 1 :: enc a

/-- Decode an optional value. -/
def decOpt (dec : Bytes → Option (α × Bytes)) : Bytes → Option (Option α × Bytes)
  | 0 :: rest => some (none, rest)
  | 1 :: rest =>
    match dec rest with
    | none => none
    | some (a, b) => some (some a, b)
  | _ => none

/-- Encoded `OutputFile`s. -/
def encOutputFile (f : OutputFile) : Bytes :=
  encString f.path ++ encDigest f.digest ++ encBool f.isExecutable

/-- Decode an `OutputFile`. -/
def decOutputFile (b : Bytes) : Option (OutputFile × Bytes) :=
  match decString b with
  | none => none
  | some (p, b) =>
    match decDigest b with
    | none => none
    | some (d, b) =>
      match b with
      | [] => none
      | x :: b => some ({ path := p, digest := d, isExecutable := x == 1 }, b)

/-- Encoded `OutputDirectory`s. -/
def encOutputDirectory (d : OutputDirectory) : Bytes :=
  encString d.path ++ encDigest d.treeDigest

/-- Decode an `OutputDirectory`. -/
def decOutputDirectory (b : Bytes) : Option (OutputDirectory × Bytes) :=
  match decString b with
  | none => none
  | some (p, b) =>
    match decDigest b with
    | none => none
    | some (d, b) => some ({ path := p, treeDigest := d }, b)

/-- Modelled from the spec: `proto.Marshal` on an `ActionResult` (§6
"Message formats") — field-by-field self-delimiting serialization. -/
def marshalActionResult (r : ActionResult) : Bytes :=
  encInt r.exitCode ++ encOpt encDigest r.stdoutDigest ++
    encOpt encDigest r.stderrDigest ++ encList encOutputFile r.outputFiles ++
    encList encOutputDirectory r.outputDirectories

/-- Modelled from the spec: `proto.Unmarshal` into an `ActionResult`,
failing on malformed or trailing bytes. -/
def unmarshalActionResult (b : Bytes) : Option ActionResult :=
  match decInt b with
  | none => none
  | some (exitCode, b) =>
    match decOpt decDigest b with
    | none => none
    | some (stdoutDigest, b) =>
      match decOpt decDigest b with
      | none => none
      | some (stderrDigest, b) =>
        match decList decOutputFile b with
        | none => none
        | some (outputFiles, b) =>
          match decList decOutputDirectory b with
          | some (outputDirectories, []) =>
            some { exitCode := exitCode, stdoutDigest := stdoutDigest,
                   stderrDigest := stderrDigest, outputFiles := outputFiles,
                   outputDirectories := outputDirectories }
          | _ => none

/-- `blobstore.BlobAccess`, as used by the action cache: `Get` and `Put` of
raw bytes keyed by `(instance, digest)`, over an abstract store state `σ`
(`Get` already folds in the `ioutil.ReadAll` of the returned stream). -/
structure BlobAccess (σ : Type) where
  get : σ → String → Digest → Except GoError Bytes
  put : σ → String → Digest → Int → Bytes → Except GoError σ

/-- The Put-then-Get round-trip law of the claim: a successful `Put` makes a
subsequent `Get` under the same key return the bytes just written. -/
def PutGetLaw {σ : Type} (ba : BlobAccess σ) : Prop :=
  ∀ s inst digest size data s',
    ba.put s inst digest size data = .ok s' →
    ba.get s' inst digest = .ok data

/-- `blobAccessActionCache.GetActionResult` (lines 25-37): read the blob at
the digest and decode it as an `ActionResult`. -/
def GetActionResult {σ : Type} (ba : BlobAccess σ) (s : σ) (inst : String)
    (digest : Digest) : Except GoError ActionResult :=
  match ba.get s inst digest with
  | .error e => .error e
  | .ok data =>
    match unmarshalActionResult data with
    | none => .error .unmarshalFailure
    | some actionResult => .ok actionResult

/-- `blobAccessActionCache.PutActionResult` (lines 39-45): encode the result
and store it under the digest, declaring the encoded length. -/
def PutActionResult {σ : Type} (ba : BlobAccess σ) (s : σ) (inst : String)
    (digest : Digest) (result : ActionResult) : Except GoError σ :=
  ba.put s inst digest (Int.ofNat (marshalActionResult result).length)
    (marshalActionResult result)

/-- Association-list update for the memory blob store. -/
def storePut (m : List ((String × String) × Bytes)) (k : String × String)
    (v : Bytes) : List ((String × String) × Bytes) :=
  match m with
  | [] => [(k, v)]
  | (k', v') :: rest =>
    if k' = k then (k, v) :: rest else (k', v') :: storePut rest k v

/-- Association-list lookup for the memory blob store. -/
def storeGet (m : List ((String × String) × Bytes)) (k : String × String) :
    Option Bytes :=
  match m with
  | [] => none
  | (k', v) :: rest => if k' = k then some v else storeGet rest k

/-- Modelled from the spec: `MemoryBlobAccess` (§4.2) — a mapping
`(instance, hash) → bytes`, last-writer-wins `Put`, `NotFound` on absent
keys.  (Its source, `pkg/blobstore/memory_blob_access.go`, is not among the
provided files; this instance discharges the round-trip hypothesis of the
action-cache claim.) -/
def memoryBlobAccess : BlobAccess (List ((String × String) × Bytes)) where
  get s inst digest :=
    match storeGet s (inst, digest.hash) with
    | some data => .ok data
    | none => .error (.external "Blob not found")
  put s inst digest _size data := .ok (storePut s (inst, digest.hash) data)

/-! ## The default `InputFileExposer` (part_002)

`blobAccessInputFileExposer.Expose` materializes one CAS blob at a path via
`os.OpenFile(path, O_WRONLY|O_CREATE|O_EXCL, mode)` followed by `io.Copy`.
To make clobbering observable the filesystem is modelled explicitly as a
path-indexed map of files carrying their creation mode and contents; the
old-API `BlobAccess.Get(instance, digest)` of this file is an oracle
(`ReadAll` folded in, as before). -/

/-- A file on the modelled filesystem. -/
structure FsFile where
  mode : Nat
  contents : Bytes
  deriving DecidableEq, Repr

/-- The modelled filesystem: an association of paths to files. -/
abbrev FileSys := List (String × FsFile)

/-- Filesystem lookup. -/
def fsLookup : FileSys → String → Option FsFile
  | [], _ => none
  | (p, f) :: rest, path => if p = path then some f else fsLookup rest path

/-- `os.OpenFile path os.O_WRONLY|os.O_CREATE|os.O_EXCL mode`: fails with
EEXIST when the path already exists, otherwise creates an empty file with
the given mode. -/
def fsCreateExclusive (fs : FileSys) (path : String) (mode : Nat) :
    Except GoError FileSys :=
  if (fsLookup fs path).isSome then .error (.alreadyExists path)
  else .ok ((path, { mode := mode, contents := [] }) :: fs)

/-- `io.Copy` into the (just created, empty) file at `path`. -/
def fsWrite : FileSys → String → Bytes → FileSys
  | [], _, _ => []
  | (p, f) :: rest, path, data =>
    if p = path then (p, { f with contents := data }) :: rest
    else (p, f) :: fsWrite rest path data

/-- The old-API CAS of part_002: `Get(instance, digest)` yielding the blob's
bytes. -/
structure CasStore where
  get : String → Digest → Except GoError Bytes

/-- `blobAccessInputFileExposer.Expose` (part_002 lines 22-39): pick the mode
from `isExecutable`, open the target create-exclusively, fetch the blob and
stream it in.  Returns the outcome together with the filesystem after the
call (on a CAS error the created empty file remains, as in the source,
which only `Close`s the handle). -/
def Expose (cas : CasStore) (fs : FileSys) (inst : String) (digest : Digest)
    (outputPath : String) (isExecutable : Bool) :
    Except GoError Unit × FileSys :=
  let mode : Nat := if isExecutable then 0o555 else 0o444
  match fsCreateExclusive fs outputPath mode with
  | .error e => (.error e, fs)
  | .ok fs =>
    match cas.get inst digest with
    | .error e => (.error e, fs)
    | .ok data => (.ok (), fsWrite fs outputPath data)

/-! ## Concrete worlds

Closed instances used by the witness theorems: a benign world in which every
oracle succeeds, plus variants that fail a single stage. -/

/-- A fixed digest. -/
def d0 : Digest := { hash := "d0", sizeBytes := 4 }

/-- A benign action. -/
def action0 : Action :=
  { commandDigest := d0, inputRootDigest := d0, doNotCache := false }

/-- A minimal command. -/
def command0 : Command :=
  { arguments := ["/bin/false"], environmentVariables := [],
    workingDirectory := "", outputFiles := [], outputDirectories := [] }

/-- A request. -/
def req0 : ExecuteRequest := { instanceName := "inst", actionDigest := d0 }

/-- A world in which every oracle succeeds and the spawned command exits
with status 7. -/
def wOk : World where
  getAction _ _ := .ok action0
  getCommand _ _ := .ok command0
  getDirectory _ _ := .ok ⟨[], [], []⟩
  getFile _ _ _ _ := none
  putFile _ _ := .ok (d0, false)
  putTree _ _ := .ok d0
  digestFromMessage _ := .ok d0
  mkdir _ _ := none
  mkdirAll _ _ := none
  removeAll _ := ()
  openFile _ := none
  readDir _ := .ok []
  readlink _ := .ok ""
  run _ := some (.exitError 7)

/-- A world whose CAS is down: `GetAction` fails. -/
def wDown : World :=
  { wOk with getAction := fun _ _ => .error (.external "CAS down") }

/-- A command with an empty argument vector. -/
def commandNoArgs : Command := { command0 with arguments := [] }

/-- A world serving `commandNoArgs`. -/
def wNoArgs : World :=
  { wOk with getCommand := fun _ _ => .ok commandNoArgs }

/-- A directory containing one symlink. -/
def dirWithSymlink : Directory :=
  { files := [], directories := [], symlinks := [{ name := "s", target := "t" }] }

/-- A second digest, for a nested directory. -/
def d1 : Digest := { hash := "d1", sizeBytes := 2 }

/-- A symlink-free directory whose single subdirectory is `d1`. -/
def dirNested : Directory :=
  { files := [], directories := [{ name := "sub", digest := d1 }], symlinks := [] }

/-- A world whose input root is clean but whose nested subdirectory `sub`
carries a symlink. -/
def wNested : World :=
  { wOk with
      getDirectory := fun _ digest =>
        if digest = d1 then .ok dirWithSymlink else .ok dirNested }

/-- A command declaring an output file whose path escapes the build root. -/
def commandEscape : Command :=
  { command0 with arguments := ["/bin/true"], outputFiles := ["../sneaky"] }

/-- A world serving `commandEscape`, with a successful run. -/
def wEscape : World :=
  { wOk with
      getCommand := fun _ _ => .ok commandEscape
      run := fun _ => none }

/-- A command declaring two output files (one of which the action will not
produce) and one output directory. -/
def commandHarvest : Command :=
  { arguments := ["/bin/true"],
    environmentVariables := [{ name := "PATH", value := "/bin" }],
    workingDirectory := "", outputFiles := ["hit", "miss"],
    outputDirectories := ["outdir"] }

/-- A world serving `commandHarvest` in which `/build/miss` was not produced
(ENOENT on upload) while everything else succeeds. -/
def wHarvest : World :=
  { wOk with
      getCommand := fun _ _ => .ok commandHarvest
      putFile := fun _ path =>
        if path = "/build/miss" then .error (.notExist path)
        else .ok (d0, false)
      run := fun _ => none }

/-- An `ActionResult` for the action-cache round trip. -/
def result0 : ActionResult :=
  { exitCode := 0, stdoutDigest := some d0, stderrDigest := none,
    outputFiles := [{ path := "out", digest := d0, isExecutable := true }],
    outputDirectories := [{ path := "dir", treeDigest := d0 }] }

/-- The memory store after `PutActionResult` of `result0`. -/
def store0 : List ((String × String) × Bytes) :=
  [(("inst", "d0"), marshalActionResult result0)]

/-- A CAS for the exposer witness. -/
def cas0 : CasStore where
  get _ _ := .ok [104, 105]

/-- A filesystem already containing the target path. -/
def fs0 : FileSys := [("/build/in", { mode := 0o444, contents := [1] })]

/-! # Theorems -/

/-! ## Monadic plumbing -/

/-- Bind on a successful `Except`. -/
@[simp] theorem ok_bind {α β : Type} (a : α) (f : α → Except GoError β) :
    (Except.ok a >>= f) = f a := rfl

/-- Bind on a failed `Except`. -/
@[simp] theorem error_bind {α β : Type} (e : GoError) (f : α → Except GoError β) :
    ((Except.error e : Except GoError α) >>= f) = .error e := rfl

/-- `toExcept` on success. -/
@[simp] theorem toExcept_none : toExcept none = .ok () := rfl

/-- `toExcept` on an error. -/
@[simp] theorem toExcept_some (e : GoError) : toExcept (some e) = .error e := rfl

/-! ## The Go `path` package: `Clean` is idempotent

`path.Join` returns `Clean` of the concatenation whenever some element is
non-empty, so `joinPathSafe`'s comparison `joined != path.Clean(joined)`
needs `Clean (Clean s) = Clean s`.  The proof tracks the shape of `Clean`'s
output: slash-free non-empty non-`.` components, with all `..` components
forming a leading block (absent for rooted paths). -/

/-- A component `path.Clean` can emit: non-empty, not `"."`, slash-free. -/
def NiceComp (c : List Char) : Prop := c ≠ [] ∧ c ≠ dot ∧ '/' ∉ c

/-- The shape of `path.Clean` output components: a leading block of `..`
(empty when rooted) followed by ordinary components. -/
def CleanedShape (rooted : Bool) (l : List (List Char)) : Prop :=
  ∃ k rs, (∀ c ∈ rs, NiceComp c ∧ c ≠ dd) ∧ (rooted = true → k = 0) ∧
    l = List.replicate k dd ++ rs

/-- Every component produced by `splitSlashAux` is slash-free. -/
theorem splitSlashAux_no_slash (cs : List Char) :
    ∀ cur, '/' ∉ cur → ∀ c ∈ splitSlashAux cs cur, '/' ∉ c := by
  induction cs with
  | nil =>
    intro cur hcur c hc
    simp only [splitSlashAux, List.mem_singleton] at hc
    subst hc
    simpa using hcur
  | cons a rest ih =>
    intro cur hcur c hc
    by_cases ha : a = '/'
    · rw [splitSlashAux, if_pos ha] at hc
      rcases List.mem_cons.mp hc with h | h
      · subst h; simpa using hcur
      · exact ih [] (by simp) c h
    · rw [splitSlashAux, if_neg ha] at hc
      refine ih (a :: cur) ?_ c hc
      intro h
      rcases List.mem_cons.mp h with h | h
      · exact ha h.symm
      · exact hcur h

/-- Every component of `splitSlash` is slash-free. -/
theorem splitSlash_no_slash (cs : List Char) :
    ∀ c ∈ splitSlash cs, '/' ∉ c :=
  splitSlashAux_no_slash cs [] (by simp)

/-- Scanning past a slash-free chunk accumulates it. -/
theorem splitSlashAux_append (x : List Char) (hx : '/' ∉ x) :
    ∀ cs cur, splitSlashAux (x ++ cs) cur = splitSlashAux cs (x.reverse ++ cur) := by
  induction x with
  | nil => intro cs cur; simp
  | cons a x' ih =>
    intro cs cur
    have ha : ¬a = '/' := fun h => hx (by simp [h])
    have hx' : '/' ∉ x' := fun h => hx (List.mem_cons_of_mem _ h)
    rw [List.cons_append, splitSlashAux, if_neg ha, ih hx' cs (a :: cur)]
    simp

/-- Splitting undoes joining for non-empty slash-free component lists. -/
theorem splitSlash_joinSlash (l : List (List Char)) (hne : l ≠ [])
    (h : ∀ c ∈ l, '/' ∉ c) : splitSlash (joinSlash l) = l := by
  induction l with
  | nil => exact absurd rfl hne
  | cons x t ih =>
    have hx : '/' ∉ x := h x (List.mem_cons_self x t)
    cases t with
    | nil =>
      show splitSlashAux (joinSlash [x]) [] = [x]
      have : joinSlash [x] = x ++ [] := by simp [joinSlash]
      rw [this, splitSlashAux_append x hx [] []]
      simp [splitSlashAux]
    | cons y t' =>
      have hstep : joinSlash (x :: y :: t') = x ++ '/' :: joinSlash (y :: t') := rfl
      show splitSlashAux (joinSlash (x :: y :: t')) [] = x :: y :: t'
      rw [hstep, splitSlashAux_append x hx _ [], splitSlashAux, if_pos rfl]
      have := ih (by simp) (fun c hc => h c (List.mem_cons_of_mem _ hc))
      simp only [splitSlash] at this
      simp [this]

/-- The join of a non-empty component list starts with the first component's
first character. -/
theorem joinSlash_cons_head (x : List Char) (t : List (List Char)) (a : List Char)
    (hx : x = a) : ∃ ys, joinSlash (x :: t) = a ++ ys := by
  subst hx
  cases t with
  | nil => exact ⟨[], by simp [joinSlash]⟩
  | cons y t' => exact ⟨'/' :: joinSlash (y :: t'), rfl⟩

/-- A `cleanStep` on an empty or dot component is a no-op. -/
theorem cleanStep_drop (rooted : Bool) (out : List (List Char)) (c : List Char)
    (hc : c = [] ∨ c = dot) : cleanStep rooted out c = out := by
  simp [cleanStep, hc]

/-- A `cleanStep` on an ordinary component emits it. -/
theorem cleanStep_real (rooted : Bool) (out : List (List Char)) (c : List Char)
    (h1 : ¬(c = [] ∨ c = dot)) (h2 : c ≠ dd) : cleanStep rooted out c = c :: out := by
  simp [cleanStep, h1, h2]

/-- A `cleanStep` on `..` over an empty buffer. -/
theorem cleanStep_dd_nil (rooted : Bool) :
    cleanStep rooted [] dd = if rooted then [] else [dd] := by
  have h : ¬(dd = [] ∨ dd = dot) := by decide
  simp [cleanStep, h]

/-- A `cleanStep` on `..` over a non-empty buffer. -/
theorem cleanStep_dd_cons (rooted : Bool) (last : List Char)
    (rest : List (List Char)) :
    cleanStep rooted (last :: rest) dd =
      if last = dd then dd :: last :: rest else rest := by
  have h : ¬(dd = [] ∨ dd = dot) := by decide
  simp [cleanStep, h]

/-- A `cleanStep` on `..` over a pure-`..` unrooted buffer appends. -/
theorem cleanStep_dd_replicate (i : Nat) :
    cleanStep false (List.replicate i dd) dd = List.replicate (i + 1) dd := by
  cases i with
  | zero => simp [cleanStep_dd_nil]
  | succ i' =>
    rw [List.replicate_succ, cleanStep_dd_cons, if_pos rfl]
    simp [List.replicate_succ]

/-- Folding `..`s over a pure-`..` unrooted buffer accumulates them. -/
theorem foldl_cleanStep_replicate (j : Nat) :
    ∀ i, (List.replicate j dd).foldl (cleanStep false) (List.replicate i dd) =
      List.replicate (i + j) dd := by
  induction j with
  | zero => intro i; simp
  | succ j' ih =>
    intro i
    rw [List.replicate_succ, List.foldl_cons, cleanStep_dd_replicate i, ih (i + 1)]
    congr 1
    omega

/-- Folding ordinary components emits them in reverse onto the buffer. -/
theorem foldl_cleanStep_reals (rooted : Bool) (rs : List (List Char))
    (h : ∀ c ∈ rs, NiceComp c ∧ c ≠ dd) :
    ∀ acc, rs.foldl (cleanStep rooted) acc = rs.reverse ++ acc := by
  induction rs with
  | nil => intro acc; simp
  | cons a t ih =>
    intro acc
    obtain ⟨⟨ha1, ha2, -⟩, ha3⟩ := h a (List.mem_cons_self a t)
    rw [List.foldl_cons, cleanStep_real rooted acc a (by tauto) ha3,
      ih (fun c hc => h c (List.mem_cons_of_mem _ hc)) (a :: acc)]
    simp

/-- The invariant of `path.Clean`'s output buffer (reverse order): nice
components with all `..`s at the bottom, none when rooted. -/
def OutOk (rooted : Bool) (out : List (List Char)) : Prop :=
  ∃ rs k, (∀ c ∈ rs, NiceComp c ∧ c ≠ dd) ∧ (rooted = true → k = 0) ∧
    out = rs ++ List.replicate k dd

/-- `cleanStep` preserves the buffer invariant. -/
theorem cleanStep_outOk (rooted : Bool) (out : List (List Char)) (c : List Char)
    (hout : OutOk rooted out) (hc : '/' ∉ c) :
    OutOk rooted (cleanStep rooted out c) := by
  obtain ⟨rs, k, hrs, hk, rfl⟩ := hout
  by_cases h1 : c = [] ∨ c = dot
  · rw [cleanStep_drop rooted _ c h1]
    exact ⟨rs, k, hrs, hk, rfl⟩
  by_cases h2 : c = dd
  · subst h2
    cases rs with
    | nil =>
      rw [List.nil_append]
      cases k with
      | zero =>
        rw [List.replicate_zero, cleanStep_dd_nil]
        cases hr : rooted with
        | false => exact ⟨[], 1, by simp, by simp, by simp⟩
        | true => exact ⟨[], 0, by simp, fun _ => rfl, by simp⟩
      | succ k' =>
        have hkr : rooted = false := by
          cases hr : rooted with
          | false => rfl
          | true => exact absurd (hk hr) (Nat.succ_ne_zero k')
        rw [List.replicate_succ, cleanStep_dd_cons, if_pos rfl]
        exact ⟨[], k' + 2, by simp, by simp [hkr],
          by simp [List.replicate_succ]⟩
    | cons r rs' =>
      have hrdd : r ≠ dd := (hrs r (List.mem_cons_self r rs')).2
      rw [List.cons_append, cleanStep_dd_cons, if_neg hrdd]
      exact ⟨rs', k, fun x hx => hrs x (List.mem_cons_of_mem _ hx), hk, rfl⟩
  · rw [cleanStep_real rooted _ c h1 h2]
    push_neg at h1
    refine ⟨c :: rs, k, ?_, hk, by simp⟩
    intro x hx
    rcases List.mem_cons.mp hx with h | h
    · subst h; exact ⟨⟨h1.1, h1.2, hc⟩, h2⟩
    · exact hrs x h

/-- Folding any slash-free components preserves the buffer invariant. -/
theorem foldl_cleanStep_outOk (rooted : Bool) (comps : List (List Char))
    (h : ∀ c ∈ comps, '/' ∉ c) :
    ∀ acc, OutOk rooted acc → OutOk rooted (comps.foldl (cleanStep rooted) acc) := by
  induction comps with
  | nil => intro acc hacc; exact hacc
  | cons c t ih =>
    intro acc hacc
    rw [List.foldl_cons]
    exact ih (fun x hx => h x (List.mem_cons_of_mem _ hx)) _
      (cleanStep_outOk rooted acc c hacc (h c (List.mem_cons_self c t)))

/-- `cleanComps` output has the cleaned shape. -/
theorem cleanComps_shape (rooted : Bool) (comps : List (List Char))
    (h : ∀ c ∈ comps, '/' ∉ c) : CleanedShape rooted (cleanComps rooted comps) := by
  obtain ⟨rs, k, hrs, hk, heq⟩ :=
    foldl_cleanStep_outOk rooted comps h [] ⟨[], 0, by simp, fun _ => rfl, by simp⟩
  refine ⟨k, rs.reverse, fun c hc => hrs c (List.mem_reverse.mp hc), hk, ?_⟩
  rw [cleanComps, heq, List.reverse_append, List.reverse_replicate]

/-- Components of the cleaned shape are nice. -/
theorem cleanedShape_nice (rooted : Bool) (l : List (List Char))
    (h : CleanedShape rooted l) : ∀ c ∈ l, NiceComp c := by
  obtain ⟨k, rs, hrs, -, rfl⟩ := h
  intro c hc
  rcases List.mem_append.mp hc with h | h
  · have := List.eq_of_mem_replicate h
    subst this
    exact ⟨by simp [dd], by simp [dd, dot], by simp [dd]⟩
  · exact (hrs c h).1

/-- `cleanComps` fixes lists of the cleaned shape. -/
theorem cleanComps_fix (rooted : Bool) (l : List (List Char))
    (h : CleanedShape rooted l) : cleanComps rooted l = l := by
  obtain ⟨k, rs, hrs, hk, rfl⟩ := h
  rw [cleanComps, List.foldl_append]
  have hdd : (List.replicate k dd).foldl (cleanStep rooted) [] =
      List.replicate k dd := by
    cases hr : rooted with
    | true => rw [hk hr]; simp
    | false =>
      have := foldl_cleanStep_replicate k 0
      simpa using this
  rw [hdd, foldl_cleanStep_reals rooted rs hrs, List.reverse_append,
    List.reverse_reverse, List.reverse_replicate]

/-- A leading empty component is dropped by `cleanComps`. -/
theorem cleanComps_cons_nil (rooted : Bool) (l : List (List Char)) :
    cleanComps rooted ([] :: l) = cleanComps rooted l := by
  rw [cleanComps, cleanComps, List.foldl_cons, cleanStep_drop rooted [] [] (Or.inl rfl)]

/-- `goCleanChars` of a dot is a dot. -/
theorem goCleanChars_dot : goCleanChars dot = dot := by decide

/-- `goCleanChars` on a rooted path. -/
theorem goCleanChars_cons_slash (cs' : List Char) :
    goCleanChars ('/' :: cs') =
      '/' :: joinSlash (cleanComps true (splitSlash ('/' :: cs'))) := by
  simp [goCleanChars]

/-- `goCleanChars` on an unrooted path whose components clean to nothing. -/
theorem goCleanChars_cons_nil (c : Char) (cs' : List Char) (hc : ¬c = '/')
    (h : cleanComps false (splitSlash (c :: cs')) = []) :
    goCleanChars (c :: cs') = dot := by
  simp [goCleanChars, hc, h]

/-- `goCleanChars` on an unrooted path with surviving components. -/
theorem goCleanChars_cons_ne (c : Char) (cs' : List Char) (hc : ¬c = '/')
    (x : List Char) (t : List (List Char))
    (h : cleanComps false (splitSlash (c :: cs')) = x :: t) :
    goCleanChars (c :: cs') = joinSlash (x :: t) := by
  simp [goCleanChars, hc, h]

/-- `path.Clean` is idempotent (character level). -/
theorem goCleanChars_idem (cs : List Char) :
    goCleanChars (goCleanChars cs) = goCleanChars cs := by
  cases cs with
  | nil =>
    have h0 : goCleanChars ([] : List Char) = dot := rfl
    rw [h0, goCleanChars_dot]
  | cons c cs' =>
    by_cases hc : c = '/'
    · subst hc
      have hshape : CleanedShape true
          (cleanComps true (splitSlash ('/' :: cs'))) := by
        have := cleanComps_shape (decide ('/' = '/')) (splitSlash ('/' :: cs'))
          (splitSlash_no_slash _)
        simpa using this
      have hnice := cleanedShape_nice true _ hshape
      rw [goCleanChars_cons_slash cs', goCleanChars_cons_slash
        (joinSlash (cleanComps true (splitSlash ('/' :: cs'))))]
      congr 1
      have hsplit :
          splitSlash ('/' :: joinSlash (cleanComps true (splitSlash ('/' :: cs')))) =
          [] :: splitSlash (joinSlash (cleanComps true (splitSlash ('/' :: cs')))) := by
        rw [splitSlash, splitSlashAux, if_pos rfl]
        rfl
      rw [hsplit, cleanComps_cons_nil]
      congr 1
      cases hcm : cleanComps true (splitSlash ('/' :: cs')) with
      | nil => decide
      | cons x t =>
        have hrt : splitSlash (joinSlash (x :: t)) = x :: t :=
          splitSlash_joinSlash (x :: t) (by simp)
            (fun u hu => (hnice u (by rw [hcm]; exact hu)).2.2)
        rw [hrt, ← hcm]
        exact cleanComps_fix true _ hshape
    · have hshape : CleanedShape false
          (cleanComps false (splitSlash (c :: cs'))) := by
        have := cleanComps_shape (decide (c = '/')) (splitSlash (c :: cs'))
          (splitSlash_no_slash _)
        simpa [hc] using this
      have hnice := cleanedShape_nice false _ hshape
      cases hcm : cleanComps false (splitSlash (c :: cs')) with
      | nil => rw [goCleanChars_cons_nil c cs' hc hcm, goCleanChars_dot]
      | cons x t =>
        rw [goCleanChars_cons_ne c cs' hc x t hcm]
        have hx : NiceComp x :=
          hnice x (by rw [hcm]; exact List.mem_cons_self x t)
        obtain ⟨a, xs, rfl⟩ : ∃ a xs, x = a :: xs := by
          cases x with
          | nil => exact absurd rfl hx.1
          | cons a xs => exact ⟨a, xs, rfl⟩
        obtain ⟨ys, hys⟩ := joinSlash_cons_head (a :: xs) t (a :: xs) rfl
        have hhead : joinSlash ((a :: xs) :: t) = a :: (xs ++ ys) := by
          rw [hys]
          rfl
        have ha : ¬a = '/' := fun h => hx.2.2 (by simp [h])
        have hrt : splitSlash (joinSlash ((a :: xs) :: t)) = (a :: xs) :: t :=
          splitSlash_joinSlash _ (by simp)
            (fun u hu => (hnice u (by rw [hcm]; exact hu)).2.2)
        have hfix : cleanComps false (splitSlash (a :: (xs ++ ys))) =
            (a :: xs) :: t := by
          have hsh : CleanedShape false ((a :: xs) :: t) := by
            rw [← hcm]
            exact hshape
          have := cleanComps_fix false ((a :: xs) :: t) hsh
          rw [← hhead, hrt]
          exact this
        rw [hhead, goCleanChars_cons_ne a (xs ++ ys) ha (a :: xs) t hfix]
        exact hhead

/-- `String.mk` then `.data` is the identity. -/
theorem data_mk (l : List Char) : (String.mk l).data = l := rfl

/-- `path.Clean` is idempotent. -/
theorem goClean_idem (s : String) : goClean (goClean s) = goClean s := by
  show (⟨goCleanChars (String.data ⟨goCleanChars s.data⟩)⟩ : String) =
    ⟨goCleanChars s.data⟩
  rw [data_mk, goCleanChars_idem]

/-! ## `joinPathSafe` -/

/-- A string with empty character data is the empty string. -/
theorem eq_empty_of_data_eq_nil (s : String) (h : s.data = []) : s = "" := by
  cases s
  exact congrArg String.mk h

/-- `path.Join` of a list with some non-empty element is already clean. -/
theorem goJoin_clean (elems : List String) (h : ∃ e ∈ elems, e ≠ "") :
    goClean (goJoin elems) = goJoin elems := by
  obtain ⟨x, rest, hxr⟩ : ∃ x rest,
      (elems.map String.data).dropWhile (· = []) = x :: rest := by
    cases hd : (elems.map String.data).dropWhile (· = []) with
    | nil =>
      obtain ⟨e, he, hene⟩ := h
      have hall := List.dropWhile_eq_nil_iff.mp hd
      have hmem : e.data ∈ elems.map String.data := List.mem_map_of_mem _ he
      have : e.data = [] := by simpa using hall e.data hmem
      exact absurd (eq_empty_of_data_eq_nil e this) hene
    | cons x rest => exact ⟨x, rest, rfl⟩
  have hjoin : goJoin elems = ⟨goCleanChars (joinSlash (x :: rest))⟩ := by
    rw [goJoin, goJoinChars, hxr]
  rw [hjoin]
  show (⟨goCleanChars (String.data ⟨goCleanChars (joinSlash (x :: rest))⟩)⟩ :
    String) = _
  rw [data_mk, goCleanChars_idem]

/-- `joinPathSafe` succeeds on every element list with a non-empty element,
returning the joined path. -/
theorem joinPathSafe_ok (elems : List String) (h : ∃ e ∈ elems, e ≠ "") :
    joinPathSafe elems = .ok (goJoin elems) := by
  rw [joinPathSafe, if_neg (not_not_intro (goJoin_clean elems h).symm)]

/-- `joinPathSafe` under the build root always succeeds (the callers'
rejection branches are unreachable). -/
theorem joinPathSafe_build (s : String) :
    joinPathSafe [pathBuildRoot, s] = .ok (goJoin [pathBuildRoot, s]) :=
  joinPathSafe_ok _ ⟨pathBuildRoot, List.mem_cons_self _ _, by decide⟩

/-! ## Claims C3 and C2: path validation -/

/-- C3 (counterexample): `joinPathSafe` does not return a nil error for
*every* element list — on the all-empty input `path.Join` returns the empty
string while `path.Clean` maps it to `"."`, so the error branch fires. -/
theorem claim3_counterexample :
    joinPathSafe [] = .error (.nonCleanPath "") := by decide

/-- C3 (amended): for every element list containing a non-empty element,
`joinPathSafe` returns the joined path with a nil error — `path.Join`
already cleans — and in particular every call that passes the non-empty
base `/build` (as all callers in this repository do) can never take the
rejection branch.  The error branch is reachable only for all-empty input
lists. -/
theorem claim3 :
    (∀ elems : List String, (∃ e ∈ elems, e ≠ "") →
      joinPathSafe elems = .ok (goJoin elems)) ∧
    (∀ s : String,
      joinPathSafe [pathBuildRoot, s] = .ok (goJoin [pathBuildRoot, s])) :=
  ⟨joinPathSafe_ok, joinPathSafe_build⟩

/-- C3 (witness): the amended claim at the repository's own call shape. -/
theorem claim3_witness :
    joinPathSafe ["/build", ".."] = .ok (goJoin ["/build", ".."]) :=
  claim3.1 ["/build", ".."] ⟨"/build", List.mem_cons_self _ _, by decide⟩

/-- C2 (code evaluated at the failing input): a declared output path
containing `..` is *not* rejected — `path.Join` pre-cleans, so
`joinPathSafe` returns the escaped path `/sneaky` with a nil error, and an
`Execute` declaring the output file `../sneaky` runs to a successful,
cacheable response whose result references the escaped path, with the
filesystem touched at `/sneaky` (the `PutFile` oracle is consulted for it)
rather than failing with `InvalidArgument`. -/
theorem claim2 :
    joinPathSafe [pathBuildRoot, "../sneaky"] = .ok "/sneaky" ∧
    Execute wEscape req0 1 =
      ((.success
          { exitCode := 0
            stdoutDigest := some d0
            stderrDigest := some d0
            outputFiles := [{ path := "../sneaky", digest := d0,
                              isExecutable := false }]
            outputDirectories := [] },
        true),
       [{ argv := ["/bin/true"], dir := "/build", env := ["HOME=/tmp"],
          uid := 1, gid := 1 }]) := by
  constructor
  · decide
  · decide

/-! ## Claim C1: the cacheable flag -/

/-- Case shape of `Execute`: every outcome is either an error response with
`cacheable = false`, or a success response whose flag is
`!action.DoNotCache && result.ExitCode == 0` for the fetched action. -/
theorem execute_shape (w : World) (request : ExecuteRequest) (fuel : Nat) :
    (∃ e t, Execute w request fuel = ((.failure e, false), t)) ∨
    (∃ action result t,
      w.getAction request.instanceName request.actionDigest = .ok action ∧
      Execute w request fuel =
        ((.success result, !action.doNotCache && (result.exitCode == 0)), t)) := by
  unfold Execute
  split
  · exact Or.inl ⟨_, _, rfl⟩
  rename_i action hA
  split
  · exact Or.inl ⟨_, _, rfl⟩
  split
  · exact Or.inl ⟨_, _, rfl⟩
  split
  · exact Or.inl ⟨_, _, rfl⟩
  split
  · exact Or.inl ⟨_, _, rfl⟩
  split
  · exact Or.inl ⟨_, _, rfl⟩
  split
  · exact Or.inl ⟨_, _, rfl⟩
  split
  · exact Or.inl ⟨_, _, rfl⟩
  exact Or.inr ⟨action, _, _, hA, rfl⟩

/-- C1: for every `Execute` that builds an `ActionResult`, the returned
cacheable flag is true iff `action.DoNotCache` is false and the result's
exit code is 0; every error response carries `cacheable = false`. -/
theorem claim1 (w : World) (request : ExecuteRequest) (fuel : Nat) :
    (∀ e c t, Execute w request fuel = ((.failure e, c), t) → c = false) ∧
    (∀ r c t, Execute w request fuel = ((.success r, c), t) →
      ∃ action,
        w.getAction request.instanceName request.actionDigest = .ok action ∧
        (c = true ↔ (action.doNotCache = false ∧ r.exitCode = 0))) := by
  constructor
  · intro e c t h
    rcases execute_shape w request fuel with ⟨e', t', heq⟩ |
      ⟨action, result, t', hA, heq⟩ <;> rw [heq] at h <;>
      simp only [Prod.mk.injEq] at h
    · exact h.1.2.symm
    · exact ExecuteResponse.noConfusion h.1.1
  · intro r c t h
    rcases execute_shape w request fuel with ⟨e', t', heq⟩ |
      ⟨action, result, t', hA, heq⟩ <;> rw [heq] at h <;>
      simp only [Prod.mk.injEq] at h
    · exact ExecuteResponse.noConfusion h.1.1
    · obtain ⟨⟨h1, h2⟩, -⟩ := h
      have hr : result = r := by injection h1
      subst hr
      refine ⟨action, hA, ?_⟩
      rw [← h2]
      simp [Bool.and_eq_true, Bool.not_eq_true', beq_iff_eq]

/-- C1 (witness): the flag of a failed `Execute` observed through the
theorem. -/
theorem claim1_witness : (Execute wDown req0 1).1.2 = false :=
  (claim1 wDown req0 1).1 (.external "CAS down")
    ((Execute wDown req0 1).1.2) [] rfl

/-! ## Claim C6: empty argument vector -/

/-- `runCommand` on an empty argument vector: immediate rejection, nothing
spawned. -/
theorem runCommand_noArgs (w : World) (command : Command)
    (hargs : command.arguments = []) :
    runCommand w command = (.error .insufficientArguments, []) := by
  simp [runCommand, hargs]

/-- C6: an `Execute` whose command has an empty argument vector fails at the
run-command stage with `InvalidArgument` (per the spec's error
classification), spawning nothing. -/
theorem claim6 (w : World) (request : ExecuteRequest) (fuel : Nat)
    (action : Action) (command : Command)
    (hA : w.getAction request.instanceName request.actionDigest = .ok action)
    (hC : w.getCommand request.instanceName action.commandDigest = .ok command)
    (hP : prepareFilesystem w request action command fuel = .ok ())
    (hargs : command.arguments = []) :
    runCommand w command = (.error .insufficientArguments, []) ∧
    Execute w request fuel = ((.failure .insufficientArguments, false), []) ∧
    statusCode .insufficientArguments = .invalidArgument := by
  have hrun := runCommand_noArgs w command hargs
  refine ⟨hrun, ?_, rfl⟩
  unfold Execute
  rw [hA]
  dsimp only
  rw [hC]
  dsimp only
  rw [hP]
  dsimp only
  rw [hrun]
  rfl

/-- C6 (witness): the empty-argument world. -/
theorem claim6_witness :
    Execute wNoArgs req0 1 = ((.failure .insufficientArguments, false), []) :=
  (claim6 wNoArgs req0 1 action0 commandNoArgs rfl rfl rfl rfl).2.1

/-! ## Claim C7: input-tree symlinks -/

/-- `path.Clean` never returns the empty string. -/
theorem goCleanChars_ne_nil (cs : List Char) : goCleanChars cs ≠ [] := by
  cases cs with
  | nil => decide
  | cons c cs' =>
    by_cases hc : c = '/'
    · subst hc
      rw [goCleanChars_cons_slash]
      simp
    · cases hcm : cleanComps false (splitSlash (c :: cs')) with
      | nil =>
        rw [goCleanChars_cons_nil c cs' hc hcm]
        decide
      | cons x t =>
        rw [goCleanChars_cons_ne c cs' hc x t hcm]
        have hshape : CleanedShape false
            (cleanComps false (splitSlash (c :: cs'))) := by
          have := cleanComps_shape (decide (c = '/')) (splitSlash (c :: cs'))
            (splitSlash_no_slash _)
          simpa [hc] using this
        have hx : NiceComp x := cleanedShape_nice false _ hshape x
          (by rw [hcm]; exact List.mem_cons_self x t)
        obtain ⟨a, xs, rfl⟩ : ∃ a xs, x = a :: xs := by
          cases x with
          | nil => exact absurd rfl hx.1
          | cons a xs => exact ⟨a, xs, rfl⟩
        obtain ⟨ys, hys⟩ := joinSlash_cons_head (a :: xs) t (a :: xs) rfl
        rw [hys]
        simp

/-- `path.Join` of a non-empty base with any further element is non-empty
(so the staging recursion keeps a usable base at every depth). -/
theorem goJoin_pair_ne_empty (base name : String) (hb : base ≠ "") :
    goJoin [base, name] ≠ "" := by
  have hbd : ¬(base.data = []) := fun h => hb (eq_empty_of_data_eq_nil base h)
  have hdrop : ([base.data, name.data].dropWhile (· = [])) =
      [base.data, name.data] := by
    rw [List.dropWhile_cons]
    simp [hbd]
  have h2 : goJoinChars [base.data, name.data] =
      goCleanChars (joinSlash [base.data, name.data]) := by
    simp only [goJoinChars, hdrop]
  intro h
  have hdata : goJoinChars ([base, name].map String.data) = [] := by
    have := congrArg String.data h
    simpa [goJoin, data_mk] using this
  rw [show ([base, name].map String.data) = [base.data, name.data] from rfl,
    h2] at hdata
  exact goCleanChars_ne_nil _ hdata

/-- Under a world whose `GetFile` succeeds, the file-staging loop of
`createInputDirectory` succeeds for any non-empty base. -/
theorem stageFiles_ok (w : World) (inst : String) (base : String)
    (hb : base ≠ "") (hgf : ∀ d p x, w.getFile inst d p x = none)
    (files : List FileNode) :
    files.foldlM (fun _ file => do
      let childPath ← joinPathSafe [base, file.name]
      toExcept (w.getFile inst file.digest childPath file.isExecutable)) () =
      .ok () := by
  induction files with
  | nil => rfl
  | cons f rest ih =>
    rw [List.foldlM_cons]
    have hjoin := joinPathSafe_ok [base, f.name]
      ⟨base, List.mem_cons_self _ _, hb⟩
    have hg := hgf f.digest (goJoin [base, f.name]) f.isExecutable
    simp only [hjoin, ok_bind, hg, toExcept_none]
    exact ih

/-- Given the per-child characterization at the next fuel level, the
directory-staging loop of `createInputDirectory` returns the symlink
rejection exactly when some child subtree carries a symlink. -/
theorem stageDirs_char (w : World) (inst : String) (fuel : Nat)
    (H : ∀ (digest : Digest) (base : String), base ≠ "" →
      stagingCompletes w inst digest fuel = true →
      createInputDirectory w inst digest base fuel =
        if treeHasSymlink w inst digest fuel then .error .symlinksUnsupported
        else .ok ())
    (dirs : List DirectoryNode) (base : String) (hb : base ≠ "")
    (hc : ∀ d ∈ dirs, stagingCompletes w inst d.digest fuel = true) :
    dirs.foldlM (fun _ dirNode => do
        let childPath ← joinPathSafe [base, dirNode.name]
        createInputDirectory w inst dirNode.digest childPath fuel) () =
      (if dirs.any (fun d => treeHasSymlink w inst d.digest fuel) then
        .error .symlinksUnsupported
      else .ok ()) := by
  induction dirs with
  | nil => rfl
  | cons d rest ih =>
    rw [List.foldlM_cons]
    have hjoin := joinPathSafe_ok [base, d.name]
      ⟨base, List.mem_cons_self _ _, hb⟩
    simp only [hjoin, ok_bind]
    rw [H d.digest (goJoin [base, d.name]) (goJoin_pair_ne_empty base d.name hb)
      (hc d (List.mem_cons_self _ _))]
    cases hts : treeHasSymlink w inst d.digest fuel with
    | true => simp [List.any_cons, hts]
    | false =>
      simp only [Bool.false_eq_true, if_false, ok_bind]
      rw [ih (fun x hx => hc x (List.mem_cons_of_mem _ hx))]
      simp [List.any_cons, hts]

/-- The characterization of staging under a benign world: for every digest,
base and fuel bound within which the input tree completes, staging returns
the symlink rejection when the tree contains a symlink anywhere, and
succeeds otherwise. -/
theorem createInputDirectory_char (w : World) (inst : String)
    (hmk : ∀ p m, w.mkdir p m = none)
    (hgf : ∀ d p x, w.getFile inst d p x = none) :
    ∀ (fuel : Nat) (digest : Digest) (base : String), base ≠ "" →
      stagingCompletes w inst digest fuel = true →
      createInputDirectory w inst digest base fuel =
        if treeHasSymlink w inst digest fuel then .error .symlinksUnsupported
        else .ok () := by
  intro fuel
  induction fuel with
  | zero =>
    intro digest base hb hcomplete
    simp [stagingCompletes] at hcomplete
  | succ fuel ih =>
    intro digest base hb hcomplete
    cases hD : w.getDirectory inst digest with
    | error e =>
      rw [stagingCompletes, hD] at hcomplete
      exact absurd hcomplete (by simp)
    | ok dir =>
      have hall : ∀ d ∈ dir.directories,
          stagingCompletes w inst d.digest fuel = true := by
        rw [stagingCompletes, hD] at hcomplete
        exact fun d hd => List.all_eq_true.mp hcomplete d hd
      simp only [createInputDirectory, hmk, toExcept_none, ok_bind, hD]
      rw [stageFiles_ok w inst base hb hgf dir.files]
      simp only [ok_bind]
      rw [stageDirs_char w inst fuel ih dir.directories base hb hall]
      rw [treeHasSymlink, hD]
      cases hany : dir.directories.any
          (fun d => treeHasSymlink w inst d.digest fuel) with
      | true => simp [hany]
      | false =>
        simp only [Bool.false_eq_true, if_false, ok_bind, Bool.or_false]
        by_cases hlen : dir.symlinks.length > 0
        · simp [hlen, hany]
        · simp [hlen, hany]

/-- C7: an `Execute` whose input tree contains, at any depth, a `Directory`
with at least one `SymlinkNode` — the rest of the tree fetching and staging
cleanly within the fuel bound — fails during staging with the symlink
rejection, which the spec classifies `Unimplemented`. -/
theorem claim7 (w : World) (request : ExecuteRequest) (fuel : Nat)
    (action : Action) (command : Command)
    (hA : w.getAction request.instanceName request.actionDigest = .ok action)
    (hC : w.getCommand request.instanceName action.commandDigest = .ok command)
    (hmk : ∀ p m, w.mkdir p m = none)
    (hgf : ∀ d p x, w.getFile request.instanceName d p x = none)
    (hcomplete : stagingCompletes w request.instanceName
      action.inputRootDigest fuel = true)
    (hsym : treeHasSymlink w request.instanceName
      action.inputRootDigest fuel = true) :
    createInputDirectory w request.instanceName action.inputRootDigest
      pathBuildRoot fuel = .error .symlinksUnsupported ∧
    Execute w request fuel = ((.failure .symlinksUnsupported, false), []) ∧
    statusCode .symlinksUnsupported = .unimplemented := by
  have hcid : createInputDirectory w request.instanceName
      action.inputRootDigest pathBuildRoot fuel = .error .symlinksUnsupported := by
    have hchar := createInputDirectory_char w request.instanceName hmk hgf
      fuel action.inputRootDigest pathBuildRoot (by decide) hcomplete
    rw [hsym] at hchar
    simpa using hchar
  have hprep : prepareFilesystem w request action command fuel =
      .error .symlinksUnsupported := by
    simp only [prepareFilesystem, hcid, error_bind]
  refine ⟨hcid, ?_, rfl⟩
  unfold Execute
  rw [hA]
  dsimp only
  rw [hC]
  dsimp only
  rw [hprep]
  rfl

/-- C7 (witness): a clean input root whose nested subdirectory carries the
symlink. -/
theorem claim7_witness :
    Execute wNested req0 2 = ((.failure .symlinksUnsupported, false), []) :=
  (claim7 wNested req0 2 action0 command0 rfl rfl (fun _ _ => rfl)
    (fun _ _ _ => rfl) (by decide) (by decide)).2.1

/-! ## Claim C8: the child environment -/

/-- The commands `runCommand` spawns: none, or exactly the one assembled from
the command, whose environment is `HOME=<temp root>` followed by the
declared pairs. -/
theorem runCommand_trace_shape (w : World) (command : Command) :
    (runCommand w command).2 = [] ∨
    ∃ wd, joinPathSafe [pathBuildRoot, command.workingDirectory] = .ok wd ∧
      (runCommand w command).2 =
        [{ argv := command.arguments
           dir := wd
           env := ("HOME=" ++ pathTempRoot) ::
             command.environmentVariables.map (fun v => v.name ++ "=" ++ v.value)
           uid := 1
           gid := 1 }] := by
  unfold runCommand
  split
  · exact Or.inl rfl
  split
  · exact Or.inl rfl
  rename_i wd hwd
  split
  · exact Or.inl rfl
  split
  · exact Or.inl rfl
  dsimp only
  split
  · exact Or.inr ⟨wd, hwd, rfl⟩
  · exact Or.inr ⟨wd, hwd, rfl⟩

/-- The trace of an `Execute`: empty, or exactly the trace of `runCommand`
on the fetched command. -/
theorem execute_trace (w : World) (request : ExecuteRequest) (fuel : Nat) :
    (Execute w request fuel).2 = [] ∨
    ∃ action command,
      w.getAction request.instanceName request.actionDigest = .ok action ∧
      w.getCommand request.instanceName action.commandDigest = .ok command ∧
      (Execute w request fuel).2 = (runCommand w command).2 := by
  unfold Execute
  split
  · exact Or.inl rfl
  rename_i action hA
  split
  · exact Or.inl rfl
  rename_i command hC
  split
  · exact Or.inl rfl
  split
  · exact Or.inr ⟨action, command, hA, hC, rfl⟩
  split
  · exact Or.inr ⟨action, command, hA, hC, rfl⟩
  split
  · exact Or.inr ⟨action, command, hA, hC, rfl⟩
  split
  · exact Or.inr ⟨action, command, hA, hC, rfl⟩
  split
  · exact Or.inr ⟨action, command, hA, hC, rfl⟩
  exact Or.inr ⟨action, command, hA, hC, rfl⟩

/-- C8: every command an `Execute` spawns carries exactly
`HOME=<temp root>` followed by the declared name=value pairs, in order —
nothing inherited. -/
theorem claim8 (w : World) (request : ExecuteRequest) (fuel : Nat)
    (spec : CmdSpec) (h : spec ∈ (Execute w request fuel).2) :
    ∃ action command,
      w.getAction request.instanceName request.actionDigest = .ok action ∧
      w.getCommand request.instanceName action.commandDigest = .ok command ∧
      spec.env = ("HOME=" ++ pathTempRoot) ::
        command.environmentVariables.map (fun v => v.name ++ "=" ++ v.value) := by
  rcases execute_trace w request fuel with ht | ⟨action, command, hA, hC, ht⟩
  · rw [ht] at h
    exact absurd h (List.not_mem_nil spec)
  · rw [ht] at h
    rcases runCommand_trace_shape w command with h2 | ⟨wd, hwd, h2⟩
    · rw [h2] at h
      exact absurd h (List.not_mem_nil spec)
    · rw [h2] at h
      have hs := List.mem_singleton.mp h
      exact ⟨action, command, hA, hC, by rw [hs]⟩

/-- C8 (witness): the environment of the spawned command in the benign
world. -/
theorem claim8_witness :
    ∃ action command,
      wOk.getAction req0.instanceName req0.actionDigest = .ok action ∧
      wOk.getCommand req0.instanceName action.commandDigest = .ok command ∧
      CmdSpec.env
          { argv := ["/bin/false"]
            dir := "/build"
            env := ["HOME=/tmp"]
            uid := 1
            gid := 1 } =
        ("HOME=" ++ pathTempRoot) ::
          command.environmentVariables.map (fun v => v.name ++ "=" ++ v.value) :=
  claim8 wOk req0 1 _ (by decide)

/-! ## Claims C4 and C5: exit semantics and the output harvest -/

/-- When every declared output file either uploads or is absent (ENOENT),
the harvest loop returns exactly the present ones, in declaration order. -/
theorem uploadOutputFiles_ok (w : World) (inst : String) (ofs : List String)
    (h : ∀ of ∈ ofs,
      (∃ d x, w.putFile inst (goJoin [pathBuildRoot, of]) = .ok (d, x)) ∨
      ∃ e, w.putFile inst (goJoin [pathBuildRoot, of]) = .error e ∧
        isNotExist e = true) :
    uploadOutputFiles w inst ofs = .ok (specOutputFiles w inst ofs) := by
  induction ofs with
  | nil => rfl
  | cons of rest ih =>
    have hrest := fun x hx => h x (List.mem_cons_of_mem _ hx)
    simp only [uploadOutputFiles, joinPathSafe_build, ok_bind]
    rcases h of (List.mem_cons_self _ _) with ⟨d, x, hput⟩ | ⟨e, hput, hne⟩
    · rw [hput, ih hrest]
      simp only [specOutputFiles, List.filterMap_cons, hput, ok_bind]
    · rw [hput]
      dsimp only
      rw [hne]
      simp only [if_true, ih hrest, specOutputFiles, List.filterMap_cons, hput]

/-- A declared output file whose upload fails other than with ENOENT aborts
the harvest loop. -/
theorem uploadOutputFiles_abort (w : World) (inst : String) (ofs : List String)
    (h : ∃ of ∈ ofs, ∃ e,
      w.putFile inst (goJoin [pathBuildRoot, of]) = .error e ∧
      isNotExist e = false) :
    ∃ e, uploadOutputFiles w inst ofs = .error e := by
  induction ofs with
  | nil =>
    obtain ⟨of, hof, -⟩ := h
    exact absurd hof (List.not_mem_nil of)
  | cons of rest ih =>
    simp only [uploadOutputFiles, joinPathSafe_build, ok_bind]
    obtain ⟨of', hof', e', hput', hne'⟩ := h
    rcases List.mem_cons.mp hof' with rfl | hmem
    · rw [hput']
      dsimp only
      rw [hne']
      exact ⟨e', by simp⟩
    · cases hp : w.putFile inst (goJoin [pathBuildRoot, of]) with
      | error e =>
        cases hne : isNotExist e with
        | true =>
          obtain ⟨e'', htail⟩ := ih ⟨of', hmem, e', hput', hne'⟩
          refine ⟨e'', ?_⟩
          dsimp only
          rw [hne, htail]
          simp
        | false =>
          refine ⟨e, ?_⟩
          dsimp only
          rw [hne]
          simp
      | ok p =>
        obtain ⟨d, x⟩ := p
        obtain ⟨e'', htail⟩ := ih ⟨of', hmem, e', hput', hne'⟩
        refine ⟨e'', ?_⟩
        dsimp only
        rw [htail]
        rfl

/-- When every declared output directory's tree either uploads or does not
exist, the harvest loop returns exactly the existing ones, in declaration
order. -/
theorem uploadOutputDirectories_ok (w : World) (inst : String) (fuel : Nat)
    (ods : List String)
    (h : ∀ od ∈ ods, ∃ r,
      uploadTree w inst (goJoin [pathBuildRoot, od]) fuel = .ok r) :
    uploadOutputDirectories w inst fuel ods =
      .ok (specOutputDirectories w inst fuel ods) := by
  induction ods with
  | nil => rfl
  | cons od rest ih =>
    have hrest := fun x hx => h x (List.mem_cons_of_mem _ hx)
    simp only [uploadOutputDirectories, joinPathSafe_build, ok_bind]
    obtain ⟨r, hup⟩ := h od (List.mem_cons_self _ _)
    cases r with
    | none =>
      rw [hup]
      simp only [ih hrest, specOutputDirectories, List.filterMap_cons, hup]
    | some digest =>
      rw [hup, ih hrest]
      simp only [specOutputDirectories, List.filterMap_cons, hup, ok_bind]

/-- A declared output directory whose tree upload errors aborts the harvest
loop. -/
theorem uploadOutputDirectories_abort (w : World) (inst : String) (fuel : Nat)
    (ods : List String)
    (h : ∃ od ∈ ods, ∃ e,
      uploadTree w inst (goJoin [pathBuildRoot, od]) fuel = .error e) :
    ∃ e, uploadOutputDirectories w inst fuel ods = .error e := by
  induction ods with
  | nil =>
    obtain ⟨od, hod, -⟩ := h
    exact absurd hod (List.not_mem_nil od)
  | cons od rest ih =>
    simp only [uploadOutputDirectories, joinPathSafe_build, ok_bind]
    obtain ⟨od', hod', e', hup'⟩ := h
    rcases List.mem_cons.mp hod' with rfl | hmem
    · rw [hup']
      exact ⟨e', rfl⟩
    · cases hup : uploadTree w inst (goJoin [pathBuildRoot, od]) fuel with
      | error e => exact ⟨e, rfl⟩
      | ok r =>
        obtain ⟨e'', htail⟩ := ih ⟨od', hmem, e', hup'⟩
        cases r with
        | none => exact ⟨e'', htail⟩
        | some digest =>
          refine ⟨e'', ?_⟩
          dsimp only
          rw [htail]
          rfl

/-- C4: a spawned command that exits non-zero is not an executor error —
under successful uploads `Execute` returns a success response carrying the
observed exit code with `cacheable = false`; only a non-`ExitError` from
running the command surfaces as an error response. -/
theorem claim4 (w : World) (request : ExecuteRequest) (fuel : Nat)
    (action : Action) (command : Command)
    (hA : w.getAction request.instanceName request.actionDigest = .ok action)
    (hC : w.getCommand request.instanceName action.commandDigest = .ok command)
    (hP : prepareFilesystem w request action command fuel = .ok ()) :
    (∀ status : Int,
      (runCommand w command).1 = .error (.exitError status) → status ≠ 0 →
      ∀ dOut xOut, w.putFile request.instanceName pathStdout = .ok (dOut, xOut) →
      ∀ dErr xErr, w.putFile request.instanceName pathStderr = .ok (dErr, xErr) →
      ∀ ofs, uploadOutputFiles w request.instanceName command.outputFiles =
        .ok ofs →
      ∀ ods, uploadOutputDirectories w request.instanceName fuel
        command.outputDirectories = .ok ods →
      Execute w request fuel =
        ((.success
            { exitCode := status
              stdoutDigest := some dOut
              stderrDigest := some dErr
              outputFiles := ofs
              outputDirectories := ods },
          false), (runCommand w command).2)) ∧
    (∀ e, (runCommand w command).1 = .error e →
      (∀ status, e ≠ .exitError status) →
      Execute w request fuel = ((.failure e, false), (runCommand w command).2)) := by
  constructor
  · intro status hrun hst dOut xOut hout dErr xErr herr ofs hofs ods hods
    have hexit : exitOf (runCommand w command).1 = .ok status := by
      rw [hrun]
      rfl
    have hbeq : (status == 0) = false := by simpa using hst
    unfold Execute
    rw [hA]
    dsimp only
    rw [hC]
    dsimp only
    rw [hP]
    dsimp only
    rw [hexit]
    dsimp only
    rw [hout]
    dsimp only
    rw [herr]
    dsimp only
    rw [hofs]
    dsimp only
    rw [hods]
    dsimp only
    rw [hbeq]
    simp
  · intro e hrun hne
    have hexit : exitOf (runCommand w command).1 = .error e := by
      rw [hrun]
      cases e <;> first | rfl | exact absurd rfl (hne _)
    unfold Execute
    rw [hA]
    dsimp only
    rw [hC]
    dsimp only
    rw [hP]
    dsimp only
    rw [hexit]
    rfl

/-- C4 (witness): `/bin/false` exiting 7 in the benign world. -/
theorem claim4_witness :
    Execute wOk req0 1 =
      ((.success
          { exitCode := 7
            stdoutDigest := some d0
            stderrDigest := some d0
            outputFiles := []
            outputDirectories := [] },
        false), (runCommand wOk command0).2) :=
  (claim4 wOk req0 1 action0 command0 rfl rfl rfl).1 7 rfl (by decide)
    d0 false rfl d0 false rfl [] rfl [] rfl

/-- C5: an `Execute` that reaches the harvest lists exactly the present
declared output files and the existing declared output directories, in
declaration order, skipping ENOENT files and missing directories; any other
upload error aborts the `Execute`. -/
theorem claim5 (w : World) (request : ExecuteRequest) (fuel : Nat)
    (action : Action) (command : Command) (ec : Int)
    (dOut : Digest) (xOut : Bool) (dErr : Digest) (xErr : Bool)
    (hA : w.getAction request.instanceName request.actionDigest = .ok action)
    (hC : w.getCommand request.instanceName action.commandDigest = .ok command)
    (hP : prepareFilesystem w request action command fuel = .ok ())
    (hrun : exitOf (runCommand w command).1 = .ok ec)
    (hout : w.putFile request.instanceName pathStdout = .ok (dOut, xOut))
    (herr : w.putFile request.instanceName pathStderr = .ok (dErr, xErr)) :
    ((∀ of ∈ command.outputFiles,
        (∃ d x, w.putFile request.instanceName (goJoin [pathBuildRoot, of]) =
          .ok (d, x)) ∨
        ∃ e, w.putFile request.instanceName (goJoin [pathBuildRoot, of]) =
          .error e ∧ isNotExist e = true) →
     (∀ od ∈ command.outputDirectories, ∃ r,
        uploadTree w request.instanceName (goJoin [pathBuildRoot, od]) fuel =
          .ok r) →
      Execute w request fuel =
        ((.success
            { exitCode := ec
              stdoutDigest := some dOut
              stderrDigest := some dErr
              outputFiles :=
                specOutputFiles w request.instanceName command.outputFiles
              outputDirectories :=
                specOutputDirectories w request.instanceName fuel
                  command.outputDirectories },
          !action.doNotCache && (ec == 0)), (runCommand w command).2)) ∧
    ((∃ of ∈ command.outputFiles, ∃ e,
        w.putFile request.instanceName (goJoin [pathBuildRoot, of]) =
          .error e ∧ isNotExist e = false) →
      ∃ e, Execute w request fuel =
        ((.failure e, false), (runCommand w command).2)) ∧
    ((∀ of ∈ command.outputFiles,
        (∃ d x, w.putFile request.instanceName (goJoin [pathBuildRoot, of]) =
          .ok (d, x)) ∨
        ∃ e, w.putFile request.instanceName (goJoin [pathBuildRoot, of]) =
          .error e ∧ isNotExist e = true) →
     (∃ od ∈ command.outputDirectories, ∃ e,
        uploadTree w request.instanceName (goJoin [pathBuildRoot, od]) fuel =
          .error e) →
      ∃ e, Execute w request fuel =
        ((.failure e, false), (runCommand w command).2)) := by
  refine ⟨?_, ?_, ?_⟩
  · intro hbf hbd
    unfold Execute
    rw [hA]
    dsimp only
    rw [hC]
    dsimp only
    rw [hP]
    dsimp only
    rw [hrun]
    dsimp only
    rw [hout]
    dsimp only
    rw [herr]
    dsimp only
    rw [uploadOutputFiles_ok w request.instanceName command.outputFiles hbf]
    dsimp only
    rw [uploadOutputDirectories_ok w request.instanceName fuel
      command.outputDirectories hbd]
  · intro habort
    obtain ⟨e, hfe⟩ :=
      uploadOutputFiles_abort w request.instanceName command.outputFiles habort
    refine ⟨e, ?_⟩
    unfold Execute
    rw [hA]
    dsimp only
    rw [hC]
    dsimp only
    rw [hP]
    dsimp only
    rw [hrun]
    dsimp only
    rw [hout]
    dsimp only
    rw [herr]
    dsimp only
    rw [hfe]
    rfl
  · intro hbf habort
    obtain ⟨e, hde⟩ := uploadOutputDirectories_abort w request.instanceName
      fuel command.outputDirectories habort
    refine ⟨e, ?_⟩
    unfold Execute
    rw [hA]
    dsimp only
    rw [hC]
    dsimp only
    rw [hP]
    dsimp only
    rw [hrun]
    dsimp only
    rw [hout]
    dsimp only
    rw [herr]
    dsimp only
    rw [uploadOutputFiles_ok w request.instanceName command.outputFiles hbf]
    dsimp only
    rw [hde]
    rfl

/-- C5 (witness): a harvest with one present output file, one absent output
file, and one existing output directory. -/
theorem claim5_witness :
    Execute wHarvest req0 1 =
      ((.success
          { exitCode := 0
            stdoutDigest := some d0
            stderrDigest := some d0
            outputFiles :=
              specOutputFiles wHarvest req0.instanceName
                commandHarvest.outputFiles
            outputDirectories :=
              specOutputDirectories wHarvest req0.instanceName 1
                commandHarvest.outputDirectories },
        !action0.doNotCache && ((0 : Int) == 0)),
       (runCommand wHarvest commandHarvest).2) :=
  (claim5 wHarvest req0 1 action0 commandHarvest 0 d0 false d0 false
    rfl rfl rfl rfl rfl rfl).1
    (by
      intro of hof
      rcases List.mem_cons.mp hof with rfl | hof
      · exact Or.inl ⟨d0, false, by decide⟩
      rcases List.mem_cons.mp hof with rfl | hof
      · exact Or.inr ⟨.notExist "/build/miss", by decide, rfl⟩
      · exact absurd hof (List.not_mem_nil of))
    (by
      intro od hod
      rcases List.mem_cons.mp hod with rfl | hod
      · exact ⟨some d0, by decide⟩
      · exact absurd hod (List.not_mem_nil od))

/-! ## Claim C9: the action-cache round trip -/

/-- Integer decode inverts encode. -/
theorem decInt_enc (i : Int) (r : Bytes) : decInt (encInt i ++ r) = some (i, r) := by
  by_cases h : i < 0
  · show decInt ((if i < 0 then 1 else 0) :: i.natAbs :: r) = some (i, r)
    rw [if_pos h]
    simp only [decInt]
    simp only [Option.some.injEq, Prod.mk.injEq, and_true]
    rw [if_pos trivial]
    omega
  · show decInt ((if i < 0 then 1 else 0) :: i.natAbs :: r) = some (i, r)
    rw [if_neg h]
    simp only [decInt]
    simp only [Option.some.injEq, Prod.mk.injEq, and_true]
    simp only [Nat.zero_ne_one, if_false]
    omega

/-- String decode inverts encode. -/
theorem decString_enc (s : String) (r : Bytes) :
    decString (encString s ++ r) = some (s, r) := by
  show decString (s.data.length :: (s.data.map Char.toNat ++ r)) = some (s, r)
  have hlen : s.data.length ≤ (s.data.map Char.toNat ++ r).length := by simp
  have htake : (s.data.map Char.toNat ++ r).take s.data.length =
      s.data.map Char.toNat := by
    simp
  have hdrop : (s.data.map Char.toNat ++ r).drop s.data.length = r := by
    simp
  simp only [decString, if_pos hlen, htake, hdrop]
  simp [List.map_map, Function.comp_def, Char.ofNat_toNat]

/-- List-element decode inverts encode. -/
theorem decListAux_enc {α : Type} (dec : Bytes → Option (α × Bytes))
    (enc : α → Bytes) (H : ∀ a r, dec (enc a ++ r) = some (a, r))
    (l : List α) (r : Bytes) :
    decListAux dec l.length ((l.map enc).flatten ++ r) = some (l, r) := by
  induction l generalizing r with
  | nil => rfl
  | cons a t ih =>
    show decListAux dec (t.length + 1) ((enc a ++ (t.map enc).flatten) ++ r) =
      some (a :: t, r)
    rw [List.append_assoc]
    simp only [decListAux, H a ((t.map enc).flatten ++ r), ih r]

/-- List decode inverts encode. -/
theorem decList_enc {α : Type} (dec : Bytes → Option (α × Bytes))
    (enc : α → Bytes) (H : ∀ a r, dec (enc a ++ r) = some (a, r))
    (l : List α) (r : Bytes) :
    decList dec (encList enc l ++ r) = some (l, r) := by
  show decList dec (l.length :: ((l.map enc).flatten ++ r)) = some (l, r)
  simp only [decList, decListAux_enc dec enc H l r]

/-- Digest decode inverts encode. -/
theorem decDigest_enc (d : Digest) (r : Bytes) :
    decDigest (encDigest d ++ r) = some (d, r) := by
  obtain ⟨h, sz⟩ := d
  rw [encDigest, List.append_assoc]
  simp only [decDigest, decString_enc, decInt_enc]

/-- Option decode inverts encode. -/
theorem decOpt_enc {α : Type} (dec : Bytes → Option (α × Bytes))
    (enc : α → Bytes) (H : ∀ a r, dec (enc a ++ r) = some (a, r))
    (o : Option α) (r : Bytes) :
    decOpt dec (encOpt enc o ++ r) = some (o, r) := by
  cases o with
  | none => rfl
  | some a =>
    show decOpt dec (1 :: (enc a ++ r)) = some (some a, r)
    simp only [decOpt, H a r]

/-- `OutputFile` decode inverts encode. -/
theorem decOutputFile_enc (f : OutputFile) (r : Bytes) :
    decOutputFile (encOutputFile f ++ r) = some (f, r) := by
  obtain ⟨p, d, x⟩ := f
  rw [encOutputFile, List.append_assoc, List.append_assoc]
  simp only [decOutputFile, decString_enc, decDigest_enc]
  cases x <;> rfl

/-- `OutputDirectory` decode inverts encode. -/
theorem decOutputDirectory_enc (d : OutputDirectory) (r : Bytes) :
    decOutputDirectory (encOutputDirectory d ++ r) = some (d, r) := by
  obtain ⟨p, t⟩ := d
  rw [encOutputDirectory, List.append_assoc]
  simp only [decOutputDirectory, decString_enc, decDigest_enc]

/-- The modelled `proto.Unmarshal` inverts the modelled `proto.Marshal`. -/
theorem unmarshal_marshal (res : ActionResult) :
    unmarshalActionResult (marshalActionResult res) = some res := by
  obtain ⟨ec, so, se, ofs, ods⟩ := res
  have hlast : decList decOutputDirectory (encList encOutputDirectory ods) =
      some (ods, []) := by
    have := decList_enc decOutputDirectory encOutputDirectory
      decOutputDirectory_enc ods []
    rwa [List.append_nil] at this
  rw [marshalActionResult, List.append_assoc, List.append_assoc,
    List.append_assoc]
  simp only [unmarshalActionResult, decInt_enc,
    decOpt_enc decDigest encDigest decDigest_enc,
    decList_enc decOutputFile encOutputFile decOutputFile_enc, hlast]

/-- Lookup after update on the memory store. -/
theorem storeGet_storePut (m : List ((String × String) × Bytes))
    (k : String × String) (v : Bytes) : storeGet (storePut m k v) k = some v := by
  induction m with
  | nil => simp [storePut, storeGet]
  | cons p rest ih =>
    obtain ⟨k', v'⟩ := p
    by_cases h : k' = k
    · simp [storePut, h, storeGet]
    · simp [storePut, h, storeGet, ih]

/-- `memoryBlobAccess` satisfies the Put-then-Get round-trip law. -/
theorem memoryBlobAccess_law : PutGetLaw memoryBlobAccess := by
  intro s inst digest size data s' hput
  simp only [memoryBlobAccess] at hput
  have hs : storePut s (inst, digest.hash) data = s' := by
    injection hput
  subst hs
  simp only [memoryBlobAccess, storeGet_storePut]

/-- C9: against a `BlobAccess` satisfying the Put-then-Get round-trip law,
`PutActionResult` followed by `GetActionResult` under the same key returns
an `ActionResult` equal to the one stored. -/
theorem claim9 {σ : Type} (ba : BlobAccess σ) (hlaw : PutGetLaw ba)
    (s : σ) (inst : String) (digest : Digest) (result : ActionResult) (s' : σ)
    (hput : PutActionResult ba s inst digest result = .ok s') :
    GetActionResult ba s' inst digest = .ok result := by
  have hget : ba.get s' inst digest = .ok (marshalActionResult result) :=
    hlaw s inst digest _ _ s' hput
  simp only [GetActionResult, hget, unmarshal_marshal]

/-- C9 (witness): the round trip through the memory store. -/
theorem claim9_witness :
    GetActionResult memoryBlobAccess store0 "inst" d0 = .ok result0 :=
  claim9 memoryBlobAccess memoryBlobAccess_law [] "inst" d0 result0 store0 rfl

/-! ## Claim C10: the default input-file exposer -/

/-- C10: `Expose` opens the target create-exclusively — failing, with the
filesystem untouched, when a file already exists at the path — and
otherwise creates it with mode 0555 (executable) or 0444, streaming the CAS
blob's bytes into it and touching no other path. -/
theorem claim10 (cas : CasStore) (fs : FileSys) (inst : String)
    (digest : Digest) (outputPath : String) (isExecutable : Bool) :
    ((fsLookup fs outputPath).isSome = true →
      Expose cas fs inst digest outputPath isExecutable =
        (.error (.alreadyExists outputPath), fs)) ∧
    (∀ data, fsLookup fs outputPath = none → cas.get inst digest = .ok data →
      Expose cas fs inst digest outputPath isExecutable =
        (.ok (), (outputPath,
          { mode := if isExecutable then 0o555 else 0o444
            contents := data }) :: fs) ∧
      ∀ q, q ≠ outputPath →
        fsLookup ((outputPath,
          { mode := (if isExecutable then 0o555 else 0o444 : Nat)
            contents := data }) :: fs) q = fsLookup fs q) := by
  constructor
  · intro h
    simp [Expose, fsCreateExclusive, h]
  · intro data hnone hget
    constructor
    · simp only [Expose, fsCreateExclusive, hnone, Option.isSome_none,
        Bool.false_eq_true, if_false, hget]
      simp [fsWrite]
    · intro q hq
      have h' : ¬(outputPath = q) := fun h => hq h.symm
      simp [fsLookup, h']

/-- C10 (witness): an existing file at the target path is never clobbered. -/
theorem claim10_witness :
    Expose cas0 fs0 "inst" d0 "/build/in" false =
      (.error (.alreadyExists "/build/in"), fs0) :=
  (claim10 cas0 fs0 "inst" d0 "/build/in" false).1 rfl

end Bbb
